import Mathlib

/-!
Shallow embedding of the OptiMap Swiss-table hash map
(`src/include/hashmap.hpp`, single-allocation layout with group-occupancy
bitmask, the variant whose line numbers the claims cite) and of the
portable path of `gxhash64` (`src/include/gxhash.hpp`).

Modelling conventions:
* `size_t` values are natural numbers; arithmetic that can wrap in C++ is
  reduced modulo `2 ^ 64` (`szt`).  Control bytes (`int8_t`) are integers in
  `[-128, 127]`.
* The contiguous allocation is modelled by three lists: `ctrl` of length
  `capacity + 16` (metadata plus the sentinel tail), `buckets` of length
  `capacity` (a slot holds `none` until it is first written), `gmask`
  (the `uint64` words of the group-occupancy bitmask).
* The hash functor `Hash{}` is a parameter `hash : K → Nat`; its value is
  reduced by `szt` at each call site, modelling its `size_t` return type.
* The unbounded probe loops of the source are given fuel `capacity / 16`:
  the visited group start indices `(p + 16*k) & (capacity-1)` repeat with
  period `capacity / 16`, and the exit conditions of an iteration depend
  only on the group bytes and the key, so the C++ loop returns a result iff
  it returns one within the first `capacity / 16` iterations, and with the
  same value (the recorded `first_deleted_slot` at the first exiting
  iteration agrees because the prefix of visited groups agrees).  Fuel
  exhaustion (`none`) models an infinite loop of the C++ code.
* Fallible operations return `Option`; `none` models divergence (or, in
  `resize`/`extract`, reading a slot the C++ code could only reach through
  undefined behaviour).  Reachability only steps through `some` results.
-/

namespace OptiMap

/-- `size_t` modulus. -/
def SZ : Nat := 2 ^ 64

/-- Reduction of a natural number to a `size_t` value. -/
def szt (n : Nat) : Nat := n % SZ

/-- 16 control bytes per group (`kGroupWidth`). -/
def kGroupWidth : Nat := 16

/-- Control byte for a never-occupied slot (`kEmpty = -128`). -/
def kEmpty : Int := -128

/-- Control byte for an erased slot (`kDeleted = -2`). -/
def kDeleted : Int := -2

/-- `static_cast<int8_t>` of an unsigned value. -/
def toInt8 (n : Nat) : Int :=
  if n % 256 < 128 then ((n % 256 : Nat) : Int) else ((n % 256 : Nat) : Int) - 256

/-- `h2`: the 7-bit fingerprint, `static_cast<int8_t>(hash >> 57)`. -/
def h2 (H : Nat) : Int := toInt8 (H >>> 57)

/-- The table state (`HashMap<Key, Value>`).  `ctrl` has `cap + 16`
entries when `cap > 0` (metadata plus sentinel tail); `buckets` has `cap`
entries; `gmask` holds the 64-bit words of the group-occupancy bitmask. -/
structure HM (K V : Type) where
  ctrl : List Int
  buckets : List (Option (K × V))
  gmask : List Nat
  size : Nat
  cap : Nat
deriving DecidableEq

/-- A default-constructed map (`HashMap()`): no allocation. -/
def HM.empty {K V : Type} : HM K V := ⟨[], [], [], 0, 0⟩

variable {K V : Type}

/-- Read of `m_ctrl[i]` (out-of-range reads, which the source never
performs on well-formed states, default to `0`). -/
def ctrlAt (m : HM K V) (i : Nat) : Int := m.ctrl.getD i 0

/-- Read of `m_buckets[i]`. -/
def bucketAt (m : HM K V) (i : Nat) : Option (K × V) := m.buckets.getD i none

/-- The key stored in slot `i`, if the slot has ever been written. -/
def keyAt (m : HM K V) (i : Nat) : Option K := (bucketAt m i).map Prod.fst

/-- `h1`: the home index, `hash & (capacity() - 1)`. -/
def h1 (cap H : Nat) : Nat := H &&& (cap - 1)

/-- `group_start_index = (probe_start_index + offset) & (capacity() - 1)`. -/
def groupStart (cap pstart offset : Nat) : Nat := (pstart + offset) &&& (cap - 1)

/-- Byte `j` of the 16-byte group loaded at `m_ctrl[g]` (an unaligned load
that may run into the sentinel tail). -/
def groupByte (m : HM K V) (g j : Nat) : Int := ctrlAt m (g + j)

/-- Offsets of the group whose byte equals the fingerprint, lowest first:
the order in which the `match_h2` bitmask is consumed by `next`/`advance`. -/
def matchH2 (m : HM K V) (g : Nat) (h2v : Int) : List Nat :=
  (List.range 16).filter (fun j => groupByte m g j == h2v)

/-- Lowest offset of the group whose byte is `kEmpty`
(`match_empty().next()`), if any. -/
def matchEmptyNext (m : HM K V) (g : Nat) : Option Nat :=
  (List.range 16).find? (fun j => groupByte m g j == kEmpty)

/-- Lowest offset of the group whose byte is negative
(`match_empty_or_deleted().next()`), if any. -/
def matchNegNext (m : HM K V) (g : Nat) : Option Nat :=
  (List.range 16).find? (fun j => decide (groupByte m g j < 0))

/-- Result of `find_impl`. -/
structure FindResult where
  index : Nat
  found : Bool
deriving DecidableEq

/-- The probe loop of `find_impl`.  One fuel unit per group iteration;
`offset` grows by `kGroupWidth` per iteration as in the source. -/
def findLoop [DecidableEq K] (m : HM K V) (key : K) (h2v : Int) (pstart : Nat) :
    Nat → Nat → Option Nat → Option FindResult
  | 0, _, _ => none
  | fuel + 1, offset, firstDeleted =>
    let g := groupStart m.cap pstart offset
    match (matchH2 m g h2v).find?
        (fun j => keyAt m ((g + j) &&& (m.cap - 1)) == some key) with
    | some j => some ⟨(g + j) &&& (m.cap - 1), true⟩
    | none =>
      match matchEmptyNext m g with
      | some e => some ⟨firstDeleted.getD ((g + e) &&& (m.cap - 1)), false⟩
      | none =>
        let fd :=
          if firstDeleted.isNone then
            match matchNegNext m g with
            | some d =>
              let idx := (g + d) &&& (m.cap - 1)
              if ctrlAt m idx == kDeleted then some idx else firstDeleted
            | none => firstDeleted
          else firstDeleted
        findLoop m key h2v pstart fuel (offset + 16) fd

/-- `find_impl` with explicit fuel (number of probe-loop iterations). -/
def findImplFuel [DecidableEq K] (m : HM K V) (key : K) (H : Nat) (fuel : Nat) :
    Option FindResult :=
  if m.cap = 0 then some ⟨0, false⟩
  else findLoop m key (h2 H) (h1 m.cap H) fuel 0 none

/-- `find_impl`.  Fuel `capacity / 16` is exact: see the module comment. -/
def find_impl [DecidableEq K] (m : HM K V) (key : K) (H : Nat) : Option FindResult :=
  findImplFuel m key H (m.cap / 16)

/-- One `a |= a >> w` smearing step of `next_power_of_2`. -/
def smearStep (x w : Nat) : Nat := x ||| x >>> w

/-- `next_power_of_2`: the bit-smearing round-up of the source.  The final
increment is a `size_t` increment, hence the `szt`. -/
def next_power_of_2 (n : Nat) : Nat :=
  if n = 0 then 1
  else
    let a := n - 1
    let a := a ||| (a >>> 1)
    let a := a ||| (a >>> 2)
    let a := a ||| (a >>> 4)
    let a := a ||| (a >>> 8)
    let a := a ||| (a >>> 16)
    let a := a ||| (a >>> 32)
    szt (a + 1)

/-- `allocate_and_initialize`: fresh metadata (all `kEmpty`, including the
sentinel tail), fresh buckets, zeroed group mask; `m_size` untouched.
A zero request returns without touching the state. -/
def allocate_and_initialize (m : HM K V) (newCap : Nat) : HM K V :=
  if newCap = 0 then m
  else
    { ctrl := List.replicate (newCap + 16) kEmpty
      buckets := List.replicate newCap (none : Option (K × V))
      gmask := List.replicate ((newCap / 16 + 63) / 64) 0
      size := m.size
      cap := newCap }

/-- The constructor `HashMap(capacity)`. -/
def HM.construct (hint : Nat) : HM K V :=
  if hint = 0 then HM.empty
  else allocate_and_initialize HM.empty
    (next_power_of_2 (if hint < kGroupWidth then kGroupWidth else hint))

/-- The common slot write of insertion paths: store the entry, store the
fingerprint, mirror it into the sentinel tail when `e < 16`, and set the
group's occupancy bit.  (`m_size` is handled by the callers.) -/
def writeSlot (m : HM K V) (e : Nat) (k : K) (v : V) (h2v : Int) : HM K V :=
  let m1 : HM K V := { m with buckets := m.buckets.set e (some (k, v)),
                              ctrl := m.ctrl.set e h2v }
  let m2 : HM K V :=
    if e + m1.cap < m1.cap + kGroupWidth then
      { m1 with ctrl := m1.ctrl.set (e + m1.cap) h2v }
    else m1
  let gi := e / 16
  { m2 with gmask := m2.gmask.set (gi / 64) ((m2.gmask.getD (gi / 64) 0) ||| (1 <<< (gi % 64))) }

/-- The probe of `resize_and_rehash`: first `kEmpty` byte in successive
groups.  Fuel as in `find_impl`. -/
def rehashLoop (acc : HM K V) (pstart : Nat) : Nat → Nat → Option Nat
  | 0, _ => none
  | fuel + 1, offset =>
    let g := groupStart acc.cap pstart offset
    match matchEmptyNext acc g with
    | some e => some ((g + e) &&& (acc.cap - 1))
    | none => rehashLoop acc pstart fuel (offset + 16)

/-- Move one occupied old slot into the new table (`resize_and_rehash`'s
inner loop body).  `none` models fuel exhaustion or a full slot with an
unwritten bucket, neither of which occurs on well-formed states. -/
def placeOne [DecidableEq K] (hash : K → Nat) (old : HM K V) (acc : HM K V) (i : Nat) :
    Option (HM K V) :=
  match bucketAt old i with
  | none => none
  | some (k, v) =>
    let H := szt (hash k)
    match rehashLoop acc (h1 acc.cap H) (acc.cap / 16) 0 with
    | none => none
    | some e => some (writeSlot acc e k v (h2 H))

/-- `resize_and_rehash`'s outer loop over the old slots, in ascending
index order. -/
def rehashAll [DecidableEq K] (hash : K → Nat) (old : HM K V) :
    HM K V → List Nat → Option (HM K V)
  | acc, [] => some acc
  | acc, i :: rest =>
    if 0 ≤ ctrlAt old i then
      match placeOne hash old acc i with
      | none => none
      | some acc2 => rehashAll hash old acc2 rest
    else rehashAll hash old acc rest

/-- `resize_and_rehash`. -/
def resize_and_rehash [DecidableEq K] (hash : K → Nat) (m : HM K V) : Option (HM K V) :=
  let newCap := if m.cap = 0 then kGroupWidth else m.cap * 2
  rehashAll hash m ( allocate_and_initialize m newCap) (List.range m.cap)

/-- The load-factor trigger `capacity() == 0 || m_size >= capacity() * 0.875`.
`capacity * 0.875` is exact in `double` for the reachable capacities, so the
comparison is the exact rational one. -/
def needsResize (m : HM K V) : Prop := m.cap = 0 ∨ 7 * m.cap ≤ 8 * m.size

instance (m : HM K V) : Decidable (needsResize m) := by
  unfold needsResize; infer_instance

/-- `emplace` (also `insert(key, value)` and node re-insertion).  The
`Bool` is the "newly inserted" result. -/
def emplace [DecidableEq K] (hash : K → Nat) (m : HM K V) (k : K) (v : V) :
    Option (HM K V × Bool) :=
  let step : Option (HM K V) :=
    if needsResize m then resize_and_rehash hash m else some m
  match step with
  | none => none
  | some m1 =>
    let H := szt (hash k)
    match find_impl m1 k H with
    | none => none
    | some r =>
      if r.found then some (m1, false)
      else
        let m2 := writeSlot m1 r.index k v (h2 H)
        some ({ m2 with size := m2.size + 1 }, true)

/-- The state produced by the insertion branch of `emplace` (and
`operator[]`): write the slot, then bump `m_size`. -/
def insDone [DecidableEq K] (hash : K → Nat) (m1 : HM K V) (e : Nat) (k : K) (v : V) : HM K V :=
  let m2 := writeSlot m1 e k v (h2 (szt (hash k)))
  { m2 with size := m2.size + 1 }

/-- `operator[]`: identical mutation path to `emplace` with a
default-constructed value (`dflt` models `Value{}`); returns the mapped
value. -/
def bracket [DecidableEq K] (hash : K → Nat) (m : HM K V) (k : K) (dflt : V) :
    Option (HM K V × V) :=
  let step : Option (HM K V) :=
    if needsResize m then resize_and_rehash hash m else some m
  match step with
  | none => none
  | some m1 =>
    let H := szt (hash k)
    match find_impl m1 k H with
    | none => none
    | some r =>
      if r.found then some (m1, ((bucketAt m1 r.index).map Prod.snd).getD dflt)
      else
        let m2 := writeSlot m1 r.index k dflt (h2 H)
        some ({ m2 with size := m2.size + 1 }, dflt)

/-- The state change of a successful `erase` at slot `e`: tombstone the
byte (and its sentinel mirror when `e < 16`), decrement `m_size`, and
clear the group's occupancy bit when its 16 bytes are now all negative. -/
def eraseAt (m : HM K V) (e : Nat) : HM K V :=
  let m1 : HM K V := { m with ctrl := m.ctrl.set e kDeleted }
  let m2 : HM K V :=
    if e + m1.cap < m1.cap + kGroupWidth then
      { m1 with ctrl := m1.ctrl.set (e + m1.cap) kDeleted }
    else m1
  let m3 : HM K V := { m2 with size := m2.size - 1 }
  let gi := e / 16
  let allNeg := (List.range 16).all (fun j => decide (ctrlAt m3 (gi * 16 + j) < 0))
  let w := (m3.gmask.getD (gi / 64) 0) &&& ((SZ - 1) ^^^ (1 <<< (gi % 64)))
  if allNeg then { m3 with gmask := m3.gmask.set (gi / 64) w } else m3

/-- `erase(key)`. -/
def erase_key [DecidableEq K] (hash : K → Nat) (m : HM K V) (key : K) :
    Option (HM K V × Bool) :=
  let H := szt (hash key)
  match find_impl m key H with
  | none => none
  | some r =>
    if r.found then
      let m1 : HM K V := { m with ctrl := m.ctrl.set r.index kDeleted }
      let m2 : HM K V :=
        if r.index + m1.cap < m1.cap + kGroupWidth then
          { m1 with ctrl := m1.ctrl.set (r.index + m1.cap) kDeleted }
        else m1
      let m3 : HM K V := { m2 with size := m2.size - 1 }
      let gi := r.index / 16
      let allNeg := (List.range 16).all (fun j => decide (ctrlAt m3 (gi * 16 + j) < 0))
      let w := (m3.gmask.getD (gi / 64) 0) &&& ((SZ - 1) ^^^ (1 <<< (gi % 64)))
      let m4 : HM K V :=
        if allNeg then { m3 with gmask := m3.gmask.set (gi / 64) w } else m3
      some (m4, true)
    else some (m, false)

/-- `contains` (via `find(key) != end()`); divergence of the probe is
reported as `false`, a conflation that no claim exercises on a diverging
input. -/
def containsB [DecidableEq K] (hash : K → Nat) (m : HM K V) (k : K) : Bool :=
  match find_impl m k (szt (hash k)) with
  | some r => r.found
  | none => false

/-- Value lookup (`at` / dereferencing the iterator of `find`). -/
def lookup [DecidableEq K] (hash : K → Nat) (m : HM K V) (k : K) : Option V :=
  match find_impl m k (szt (hash k)) with
  | some r => if r.found then (bucketAt m r.index).map Prod.snd else none
  | none => none

/-- `_mm_movemask_epi8` of the group at `m_ctrl[g]`: bit `j` is the sign
bit of byte `j`. -/
def movemask (m : HM K V) (g : Nat) : Nat :=
  (List.range 16).foldl (fun acc j => if groupByte m g j < 0 then acc ||| (1 <<< j) else acc) 0

/-- `__builtin_ctz` on a nonzero `uint32` (the undefined zero case is given
the out-of-range value 32). -/
def ctz32 (w : Nat) : Nat := ((List.range 32).find? (fun j => w.testBit j)).getD 32

/-- `__builtin_ctzll` on a nonzero `uint64`. -/
def ctz64 (w : Nat) : Nat := ((List.range 64).find? (fun j => w.testBit j)).getD 64

/-- The `while (true)` word scan of `iterator_impl::find_next_valid`.
`numWords` is `(capacity_in_groups + 63) / 64`; fuel `numWords + 1` covers
every reachable iteration count. -/
def wordScanLoop (m : HM K V) (numWords : Nat) : Nat → Nat → Nat → Nat
  | 0, _, _ => m.cap
  | fuel + 1, wIdx, word =>
    if word ≠ 0 then
      let gi := wIdx * 64 + ctz64 word
      let occ := (movemask m (gi * 16)) ^^^ (2 ^ 32 - 1)
      gi * 16 + ctz32 occ
    else if wIdx + 1 ≥ numWords then m.cap
    else wordScanLoop m numWords fuel (wIdx + 1) (m.gmask.getD (wIdx + 1) 0)

/-- `iterator_impl::find_next_valid`, returning the new `m_index`.  The
`uint32` complement `~mask` keeps bits 16–31 set, exactly as in the
source. -/
def find_next_valid (m : HM K V) (i : Nat) : Nat :=
  if i ≥ m.cap then i
  else
    let gi := i / 16
    let capGroups := m.cap / 16
    let occ0 := ((movemask m (gi * 16)) ^^^ (2 ^ 32 - 1)) &&& ((0xFFFFFFFF <<< (i % 16)) % 2 ^ 32)
    if occ0 ≠ 0 then gi * 16 + ctz32 occ0
    else
      let gi1 := gi + 1
      if gi1 ≥ capGroups then m.cap
      else
        let numWords := (capGroups + 63) / 64
        let word := (m.gmask.getD (gi1 / 64) 0) &&& (((SZ - 1) <<< (gi1 % 64)) % SZ)
        wordScanLoop m numWords (numWords + 1) (gi1 / 64) word

/-- `begin()`'s slot index. -/
def beginIdx (m : HM K V) : Nat := find_next_valid m 0

/-- `end()`'s slot index (`capacity()`). -/
def endIdx (m : HM K V) : Nat := m.cap

/-- The slot indices visited by iterating from index `i` to `end()`,
advancing with `operator++`.  Fuel bounds the number of yields. -/
def iterFrom (m : HM K V) : Nat → Nat → List Nat
  | 0, _ => []
  | fuel + 1, i =>
    if i ≥ m.cap then [] else i :: iterFrom m fuel (find_next_valid m (i + 1))

/-- The slot indices visited by a full `begin()`-to-`end()` iteration. -/
def iterIndices (m : HM K V) : List Nat := iterFrom m (m.cap + 1) (beginIdx m)

/-- The buckets yielded by a full iteration (dereferencing at each visited
index; `none` marks a slot the table never wrote). -/
def iterEntries (m : HM K V) : List (Option (K × V)) :=
  (iterIndices m).map (bucketAt m)

/-- `erase(iterator)`: erase through the key, then `++it`.  `none` models
dereferencing an iterator that does not point at a written slot. -/
def erase_iter [DecidableEq K] (hash : K → Nat) (m : HM K V) (i : Nat) :
    Option (HM K V × Nat) :=
  if i = m.cap then some (m, m.cap)
  else
    match bucketAt m i with
    | none => none
    | some e =>
      match erase_key hash m e.1 with
      | none => none
      | some p => some (p.1, find_next_valid p.1 (i + 1))

/-- `erase(const_iterator)`: erase through the key, then return `end()`
(the source's admitted shortcut). -/
def erase_const_iter [DecidableEq K] (hash : K → Nat) (m : HM K V) (i : Nat) :
    Option (HM K V × Nat) :=
  if i = m.cap then some (m, m.cap)
  else
    match bucketAt m i with
    | none => none
    | some e =>
      match erase_key hash m e.1 with
      | none => none
      | some p => some (p.1, p.1.cap)

/-- `extract(key)`: `find`, then move the entry out and erase through the
const iterator; the state change is that of `erase(key)`. -/
def extract_key [DecidableEq K] (hash : K → Nat) (m : HM K V) (k : K) :
    Option (HM K V × Option (K × V)) :=
  match find_impl m k (szt (hash k)) with
  | none => none
  | some r =>
    if r.found then
      match bucketAt m r.index with
      | none => none
      | some e =>
        match erase_const_iter hash m r.index with
        | none => none
        | some p => some (p.1, some e)
    else some (m, none)

/-- `destroy_and_deallocate`; the null check `if (m_ctrl)` becomes an
emptiness check on the metadata list. -/
def destroy_and_deallocate (m : HM K V) : HM K V :=
  if m.ctrl.isEmpty then m else HM.empty

/-- `clear`: destroy, then re-allocate with the (now reset) capacity. -/
def HM.clear (m : HM K V) : HM K V :=
  let m1 := destroy_and_deallocate m
  let m2 := allocate_and_initialize m1 m1.cap
  { m2 with size := 0 }

/-- A public mutating operation of the table. -/
inductive PubOp (K V : Type) where
  | ins (k : K) (v : V)
  | idx (k : K) (dflt : V)
  | del (k : K)
  | delIter (i : Nat)
  | delConstIter (i : Nat)
  | extract (k : K)
  | clear

/-- Apply one public operation; `none` models a call that never returns
(or invokes undefined behaviour). -/
def applyOp [DecidableEq K] (hash : K → Nat) (m : HM K V) : PubOp K V → Option (HM K V)
  | .ins k v => (emplace hash m k v).map Prod.fst
  | .idx k d => (bracket hash m k d).map Prod.fst
  | .del k => (erase_key hash m k).map Prod.fst
  | .delIter i => (erase_iter hash m i).map Prod.fst
  | .delConstIter i => (erase_const_iter hash m i).map Prod.fst
  | .extract k => (extract_key hash m k).map Prod.fst
  | .clear => some m.clear

/-- Run a sequence of public operations on a freshly constructed table. -/
def runOps [DecidableEq K] (hash : K → Nat) (hint : Nat) (ops : List (PubOp K V)) :
    Option (HM K V) :=
  ops.foldlM (applyOp hash) (HM.construct hint)

/-- Table states reachable by a sequence of completed public operations
(construction with any `size_t` hint, insertion in all its guises —
`insert`, `emplace`, node re-insertion —, `operator[]`, all erase
overloads, `extract`, `clear`). -/
inductive Reach [DecidableEq K] (hash : K → Nat) : HM K V → Prop where
  | construct (hint : Nat) (hh : hint < SZ) : Reach hash (HM.construct hint)
  | step (m : HM K V) (op : PubOp K V) (m2 : HM K V) (hm : Reach hash m)
      (hop : applyOp hash m op = some m2) : Reach hash m2

/-- Number of FULL metadata bytes in `[0, capacity)`. -/
def countFull (m : HM K V) : Nat :=
  (List.range m.cap).countP (fun i => decide (0 ≤ ctrlAt m i))

/-- Number of TOMBSTONE metadata bytes in `[0, capacity)`. -/
def countDeleted (m : HM K V) : Nat :=
  (List.range m.cap).countP (fun i => ctrlAt m i == kDeleted)

/-- Number of EMPTY metadata bytes in `[0, capacity)`. -/
def countEmpty (m : HM K V) : Nat :=
  (List.range m.cap).countP (fun i => ctrlAt m i == kEmpty)

/-- The wrapped slot index read as byte `o` of the group visited at probe
step `n`, for a probe starting at index `p`. -/
def probeIdx (cap p n o : Nat) : Nat := (p + (16 * n + o)) % cap

/-- Group `n` of the probe starting at `p` contains no EMPTY byte. -/
def GroupNoEmpty (m : HM K V) (p n : Nat) : Prop :=
  ∀ o, o < 16 → ctrlAt m (probeIdx m.cap p n o) ≠ kEmpty

/-- Slot `i` is reached by the probe for full hash `H` before any group
containing an EMPTY byte. -/
def Findable (m : HM K V) (H i : Nat) : Prop :=
  ∃ n o, n < m.cap / 16 ∧ o < 16 ∧ i = probeIdx m.cap (H % m.cap) n o ∧
    ∀ j, j < n → GroupNoEmpty m (H % m.cap) j

/-- The pair `(k, v)` occupies some FULL slot. -/
def storedPair (m : HM K V) (k : K) (v : V) : Prop :=
  ∃ i, i < m.cap ∧ 0 ≤ ctrlAt m i ∧ bucketAt m i = some (k, v)

/-- Structural well-formedness of a table state. -/
structure Shape (m : HM K V) : Prop where
  pow : m.cap = 0 ∨ ∃ t, m.cap = 16 * 2 ^ t
  ctrl0 : m.cap = 0 → m.ctrl = []
  buckets0 : m.cap = 0 → m.buckets = []
  ctrlLen : m.cap ≠ 0 → m.ctrl.length = m.cap + 16
  bucketsLen : m.cap ≠ 0 → m.buckets.length = m.cap
  sentinel : ∀ j, j < 16 → ctrlAt m (m.cap + j) = ctrlAt m j
  byteRange : ∀ i, i < m.cap + 16 →
    ctrlAt m i = kEmpty ∨ ctrlAt m i = kDeleted ∨ (0 ≤ ctrlAt m i ∧ ctrlAt m i ≤ 127)
  sizeEq : m.size = countFull m
  load : m.cap = 0 ∨ 8 * m.size ≤ 7 * m.cap
  gmask0 : m.cap = 0 → m.gmask = []

/-- Logical well-formedness: every FULL slot holds a written entry whose
fingerprint matches and whose key's probe reaches the slot before any
EMPTY byte; stored keys are pairwise distinct across slots. -/
structure StoredOK (hash : K → Nat) (m : HM K V) : Prop where
  full_bucket : ∀ i, i < m.cap → 0 ≤ ctrlAt m i →
    ∃ k v, bucketAt m i = some (k, v) ∧ ctrlAt m i = h2 (szt (hash k)) ∧
      Findable m (szt (hash k)) i
  inj : ∀ i j k v w, i < m.cap → j < m.cap → 0 ≤ ctrlAt m i → 0 ≤ ctrlAt m j →
    bucketAt m i = some (k, v) → bucketAt m j = some (k, w) → i = j

/-- Full well-formedness. -/
def WF (hash : K → Nat) (m : HM K V) : Prop := Shape m ∧ StoredOK hash m

/-- No TOMBSTONE byte anywhere in the metadata (holds on insert-only
histories). -/
def NoDeleted (m : HM K V) : Prop := ∀ i, i < m.cap + 16 → ctrlAt m i ≠ kDeleted

/-- Capacity of the reallocated table: `kGroupWidth` when the old
capacity was zero, else twice the old capacity. -/
def growCap2 (c : Nat) : Nat := if c = 0 then kGroupWidth else c * 2

/-- Number of FULL metadata bytes among slots `[0, bound)`. -/
def countFullBelow (m : HM K V) (bound : Nat) : Nat :=
  (List.range bound).countP (fun i => decide (0 ≤ ctrlAt m i))

/-- The pair `(k, v)` occupies a FULL slot with index below `bound`. -/
def storedPairBelow (m : HM K V) (bound : Nat) (k : K) (v : V) : Prop :=
  ∃ i, i < bound ∧ i < m.cap ∧ 0 ≤ ctrlAt m i ∧ bucketAt m i = some (k, v)

/-- Invariant of the rehash fold of `resize_and_rehash`: after the old
slots `[0, b)` have been processed, the new table `acc` holds exactly
their FULL entries, has no tombstones, and is findably well formed. -/
structure RehashInv (hash : K → Nat) (old acc : HM K V) (b : Nat) : Prop where
  capEq : acc.cap = growCap2 old.cap
  sizeEq : acc.size = old.size
  ctrlLen : acc.ctrl.length = acc.cap + 16
  bucketsLen : acc.buckets.length = acc.cap
  sentinel : ∀ j, j < 16 → ctrlAt acc (acc.cap + j) = ctrlAt acc j
  noDel : ∀ i, i < acc.cap + 16 →
    ctrlAt acc i = kEmpty ∨ (0 ≤ ctrlAt acc i ∧ ctrlAt acc i ≤ 127)
  countEq : countFull acc = countFullBelow old b
  stored : StoredOK hash acc
  storedIff : ∀ k v, storedPair acc k v ↔ storedPairBelow old b k v

/-- Capacity after one successful fresh insertion into a table with
capacity `c` and size `s` (the `emplace` resize trigger). -/
def capAfterIns (c s : Nat) : Nat := if c = 0 ∨ 7 * c ≤ 8 * s then growCap2 c else c

/-- Capacity after `n` successful fresh insertions. -/
def capsEvolve : Nat → Nat → Nat → Nat
  | c, _, 0 => c
  | c, s, n + 1 => capsEvolve (capAfterIns c s) (s + 1) n

/-- Insert a list of pairs in order via `emplace`. -/
def insertList [DecidableEq K] (hash : K → Nat) : HM K V → List (K × V) → Option (HM K V)
  | m, [] => some m
  | m, p :: rest =>
    match emplace hash m p.1 p.2 with
    | none => none
    | some q => insertList hash q.1 rest

section Scenarios

/-- The identity hash functor (results are already `size_t` values for the
small keys used below). -/
def hashId : Nat → Nat := fun k => k

/-- The pathological hash of spec scenario S3: `key & 0x0F`. -/
def hashLow : Nat → Nat := fun k => k &&& 0x0F

/-- A hash functor sending every key to digest 5 (home index 5 at
capacity 16). -/
def hashFive : Nat → Nat := fun _ => 5

/-- S3 operations: insert `1`, `17`, `33` into a capacity-16 table. -/
def opsC5 : List (PubOp Nat Nat) := [.ins 1 10, .ins 17 170, .ins 33 330]

/-- The S3 table. -/
def mapC5 : HM Nat Nat := (runOps hashLow 16 opsC5).getD HM.empty

/-- Operations driving a capacity-16 table to metadata with no EMPTY byte:
fill 14 slots, erase all 14 (leaving 14 tombstones), then insert two fresh
keys, which the probe places into the two remaining EMPTY slots. -/
def opsNoEmpty : List (PubOp Nat Nat) :=
  ((List.range 14).map (fun k => PubOp.ins k k)) ++
    ((List.range 14).map (fun k => PubOp.del k)) ++ [.ins 100 100, .ins 101 101]

/-- A reachable table whose metadata contains no EMPTY byte. -/
def mapNoEmpty : HM Nat Nat := (runOps hashId 16 opsNoEmpty).getD HM.empty

/-- Operations producing `size + tombstones = 15` at capacity 16: insert
14, erase one, insert a fresh key landing on an EMPTY slot. -/
def opsOverload : List (PubOp Nat Nat) :=
  ((List.range 14).map (fun k => PubOp.ins k k)) ++ [.del 13, .ins 100 100]

/-- A reachable table with `size + tombstones > capacity * 7/8`. -/
def mapOverload : HM Nat Nat := (runOps hashId 16 opsOverload).getD HM.empty

/-- A capacity-32 table with FULL slots exactly at indices 0 and 17. -/
def mapIterBug : HM Nat Nat := (runOps hashId 32 [.ins 0 0, .ins 17 170]).getD HM.empty

/-- A capacity-16 table holding keys 1 and 2 (slots 1 and 2). -/
def mapTwo : HM Nat Nat := (runOps hashId 16 [.ins 1 10, .ins 2 20]).getD HM.empty

/-- The keys `0..14` with values `i*10` (spec scenario S2). -/
def listS2 : List (Nat × Nat) := (List.range 15).map (fun i => (i, i * 10))

/-- The state after erasing through the const iterator at `begin()` of
`mapTwo`. -/
def mapTwoErased : HM Nat Nat := ((erase_const_iter hashId mapTwo 1).getD (HM.empty, 0)).1

/-- The S3 table after erasing key `k`. -/
def mapC5del (k : Nat) : HM Nat Nat := ((erase_key hashLow mapC5 k).getD (HM.empty, false)).1

end Scenarios


end OptiMap

namespace Gx

open OptiMap (SZ szt)

/-- `rotl64`. -/
def rotl64 (x r : Nat) : Nat := ((x <<< r) ||| (x >>> (64 - r))) % SZ

/-- `final_avalanche`: xor-shift / multiply finalizer. -/
def final_avalanche (x : Nat) : Nat :=
  let x := x ^^^ (x >>> 33)
  let x := (x * 0xff51afd7ed558ccd) % SZ
  let x := x ^^^ (x >>> 33)
  let x := (x * 0xc4ceb9fe1a85ec53) % SZ
  x ^^^ (x >>> 33)

/-- `mix64`. -/
def mix64 (a b : Nat) : Nat :=
  let z := a ^^^ b
  let z := ((z ^^^ (z >>> 30)) * 0xbf58476d1ce4e5b9) % SZ
  let z := ((z ^^^ (z >>> 27)) * 0x94d049bb133111eb) % SZ
  z ^^^ (z >>> 31)

/-- The golden-ratio constant `0x9e3779b97f4a7c15`. -/
def gxP : Nat := 0x9e3779b97f4a7c15

/-- `fetch_u64_unaligned` from a byte sequence at offset `off`,
little-endian. -/
def fetchU64 (bs : List Nat) (off : Nat) : Nat :=
  (List.range 8).foldl (fun acc i => acc ||| ((bs.getD (off + i) 0) <<< (8 * i))) 0

/-- `fetch_u32_unaligned`. -/
def fetchU32 (bs : List Nat) (off : Nat) : Nat :=
  (List.range 4).foldl (fun acc i => acc ||| ((bs.getD (off + i) 0) <<< (8 * i))) 0

/-- The 16-byte main loop of the portable path; returns
`(state, offset, remaining)`.  Structural fuel: `remaining` shrinks by 16
per iteration, so any fuel of at least `remaining` steps is exact. -/
def blockLoopAux (bs : List Nat) : Nat → Nat → Nat → Nat → Nat × Nat × Nat
  | 0, state, off, remaining => (state, off, remaining)
  | fuel + 1, state, off, remaining =>
    if 16 ≤ remaining then
      let a := fetchU64 bs off
      let b := fetchU64 bs (off + 8)
      let state := (state + a * 0x9ddfea08eb382d69) % SZ
      let mv := mix64 (a ^^^ ((rotl64 b 23 + (state ^^^ (state >>> 41))) % SZ))
                      (b ^^^ ((state + gxP) % SZ))
      let state := state ^^^ mv
      let state := (rotl64 state 27 * 0x3C79AC492BA7B653) % SZ
      blockLoopAux bs fuel state (off + 16) (remaining - 16)
    else (state, off, remaining)

/-- The 16-byte main loop of the portable path. -/
def blockLoop (bs : List Nat) (state off remaining : Nat) : Nat × Nat × Nat :=
  blockLoopAux bs remaining state off remaining

/-- `gxhash64`, portable fallback path (the hardware path is selected by
compile-time and runtime CPU dispatch and is not modelled; the null-pointer
handling at the head of the function is shared by both paths).  `data` is
`none` for a null pointer and otherwise the pointed-to byte sequence. -/
def gxhash64 (data : Option (List Nat)) (len seed : Nat) : Nat :=
  match data with
  | none =>
    if len = 0 then final_avalanche (seed ^^^ gxP)
    else final_avalanche (seed ^^^ ((len * gxP) % SZ))
  | some bs =>
    let state := seed ^^^ gxP
    let sor := blockLoop bs state 0 len
    let state := sor.1
    let p := sor.2.1
    let remaining := sor.2.2
    let spr :=
      if 8 ≤ remaining then
        let a := fetchU64 bs p
        let state := (state + (a ^^^ gxP)) % SZ
        (mix64 state a, p + 8, remaining - 8)
      else (state, p, remaining)
    let state := spr.1
    let p := spr.2.1
    let remaining := spr.2.2
    let spr2 :=
      if 4 ≤ remaining then
        let a32 := fetchU32 bs p
        let state := (state + a32 * 0x85ebca6b) % SZ
        (mix64 state a32, p + 4, remaining - 4)
      else (state, p, remaining)
    let state := spr2.1
    let p := spr2.2.1
    let remaining := spr2.2.2
    let state :=
      if 0 < remaining then
        let tail := (List.range remaining).foldl
          (fun acc i => acc ||| ((bs.getD (p + i) 0) <<< (i * 8))) 0
        let state := (state + tail * 0x27d4eb2f165667c5) % SZ
        mix64 state tail
      else state
    let state := state ^^^ ((seed <<< 7) % SZ)
    let state := (state + ((len <<< 3) % SZ)) % SZ
    final_avalanche state

end Gx

namespace OptiMap

section BasicLemmas

lemma opt_eq_some_getD {α : Type _} (o : Option α) (d : α) (h : o.isSome = true) :
    o = some (o.getD d) := by
  cases o with
  | none => cases h
  | some a => rfl

lemma Reach_foldl [DecidableEq K] (hash : K → Nat) (ops : List (PubOp K V)) :
    ∀ m0 m : HM K V, Reach hash m0 → ops.foldlM (applyOp hash) m0 = some m →
      Reach hash m := by
  induction ops with
  | nil =>
    intro m0 m h0 h
    simp only [List.foldlM_nil, Option.pure_def, Option.some.injEq] at h
    exact h ▸ h0
  | cons op rest ih =>
    intro m0 m h0 h
    simp only [List.foldlM_cons] at h
    cases hop : applyOp hash m0 op with
    | none => rw [hop] at h; simp at h
    | some m1 =>
      rw [hop] at h
      simp only [Option.bind_eq_bind, Option.some_bind] at h
      exact ih m1 m (Reach.step m0 op m1 h0 hop) h

lemma Reach_runOps [DecidableEq K] (hash : K → Nat) (hint : Nat) (hh : hint < SZ)
    (ops : List (PubOp K V)) (m : HM K V) (h : runOps hash hint ops = some m) :
    Reach hash m :=
  Reach_foldl hash ops _ m (Reach.construct hint hh) h

/-- If an iteration of the probe loop neither finds the key nor sees an
EMPTY byte, the loop's value is that of the remaining iterations,
whatever tombstone was recorded. -/
lemma findLoop_continue_none [DecidableEq K] (m : HM K V) (key : K) (h2v : Int)
    (pstart fuel offset : Nat) (fd : Option Nat)
    (hmatch : (matchH2 m (groupStart m.cap pstart offset) h2v).find?
      (fun j => keyAt m ((groupStart m.cap pstart offset + j) &&& (m.cap - 1)) == some key)
        = none)
    (hempty : matchEmptyNext m (groupStart m.cap pstart offset) = none)
    (hrec : ∀ fd2 : Option Nat, findLoop m key h2v pstart fuel (offset + 16) fd2 = none) :
    findLoop m key h2v pstart (fuel + 1) offset fd = none := by
  rw [findLoop]
  simp only [hmatch, hempty]
  exact hrec _

lemma mapNoEmpty_cap : mapNoEmpty.cap = 16 := by decide

lemma mapNoEmpty_findLoop_none :
    ∀ fuel offset fd, 16 ∣ offset →
      findLoop mapNoEmpty 50 (0 : Int) 2 fuel offset fd = none := by
  intro fuel
  induction fuel with
  | zero => intro offset fd _; rfl
  | succ n ih =>
    intro offset fd hdvd
    obtain ⟨q, rfl⟩ := hdvd
    have hg : groupStart mapNoEmpty.cap 2 (16 * q) = 2 := by
      unfold groupStart
      rw [mapNoEmpty_cap]
      show (2 + 16 * q) &&& (2 ^ 4 - 1) = 2
      rw [Nat.and_pow_two_sub_one_eq_mod]
      omega
    apply findLoop_continue_none
    · rw [hg]; decide
    · rw [hg]; decide
    · intro fd2
      exact ih (16 * q + 16) fd2 ⟨q + 1, by ring⟩

end BasicLemmas

section ConcreteClaims

/-- C1.  The claim is FALSE of the code (a code bug): `mapNoEmpty` is
reachable by public operations (construct 16; 14 inserts; 14 erases; 2
inserts), is non-empty (`size = 2`), yet its metadata contains no EMPTY
byte, and the probe loop of `find_impl` for the absent key 50 runs
forever: it returns no result under any iteration bound.  The resize
trigger counts only `size`, not tombstones, and at capacity 16 the probe
consumes EMPTY slots even when tombstones are available, so the EMPTY
supply can be exhausted. -/
theorem C1_probe_divergence_bug :
    Reach hashId mapNoEmpty ∧ mapNoEmpty.size = 2 ∧ countEmpty mapNoEmpty = 0 ∧
      ∀ fuel, findImplFuel mapNoEmpty 50 (szt (hashId 50)) fuel = none := by
  refine ⟨?_, by decide, by decide, ?_⟩
  · exact Reach_runOps hashId 16 (by decide) opsNoEmpty mapNoEmpty
      (opt_eq_some_getD _ _ (by decide))
  · intro fuel
    unfold findImplFuel
    rw [if_neg (by decide)]
    have hv : h2 (szt (hashId 50)) = (0 : Int) := by decide
    have hp : h1 mapNoEmpty.cap (szt (hashId 50)) = 2 := by decide
    rw [hv, hp]
    exact mapNoEmpty_findLoop_none fuel 0 none ⟨0, rfl⟩

/-- Witness for C1: concrete instances of the quantified conjuncts. -/
theorem C1_probe_divergence_bug_wit :
    findImplFuel mapNoEmpty 50 (szt (hashId 50)) 5 = none :=
  C1_probe_divergence_bug.2.2.2 5

/-- C2, counterexample.  `mapOverload` is reachable (construct 16; insert
`0..13`; erase `13`; insert `100`) and violates the claimed invariant:
`size + tombstones = 14 + 1 = 15 > 14 = capacity * 7/8`.  The final
insert lands on an EMPTY slot (the probe prefers the first group's EMPTY
byte over its tombstone), so the tombstone is not reclaimed. -/
theorem C2_load_invariant_cex :
    Reach hashId mapOverload ∧ mapOverload.cap = 16 ∧
      mapOverload.size + countDeleted mapOverload = 15 ∧
      ¬ 8 * (mapOverload.size + countDeleted mapOverload) ≤ 7 * mapOverload.cap := by
  refine ⟨?_, by decide, by decide, by decide⟩
  exact Reach_runOps hashId 16 (by decide) opsOverload mapOverload
    (opt_eq_some_getD _ _ (by decide))

/-- C3.  The claim is FALSE of the code (a code bug): on the reachable
capacity-32 table `mapIterBug` (construct 32; insert keys 0 and 17 under
the identity hash), iteration visits slot 16, which is EMPTY and was
never written, so the yielded entries are not the stored keys.  Cause: in
`find_next_valid`, `~match_empty_or_deleted().mask` keeps bits 16–31 of
the `uint32` set, so `occupied_mask` is never zero, the group-mask scan
is unreachable, and the iterator halts at the start of the next group
regardless of its occupancy (`erase` masks the same complement with
`0xFFFF`; `find_next_valid` does not). -/
theorem C3_iteration_bug :
    Reach hashId mapIterBug ∧ mapIterBug.size = 2 ∧
      iterIndices mapIterBug = [0, 16, 17] ∧
      ctrlAt mapIterBug 16 = kEmpty ∧ bucketAt mapIterBug 16 = none ∧
      iterEntries mapIterBug = [some (0, 0), none, some (17, 170)] := by
  refine ⟨?_, by decide, by decide, by decide, by decide, by decide⟩
  exact Reach_runOps hashId 32 (by decide) [.ins 0 0, .ins 17 170] mapIterBug
    (opt_eq_some_getD _ _ (by decide))

/-- C5.  Collision survival, exactly as in spec scenario S3 with the
pathological hash `key & 0x0F`: keys 1, 17, 33 all probe from home index
1; all are findable; erasing any single one of them writes a TOMBSTONE at
its slot, leaves the other two findable, and leaves `size() = 2`. -/
theorem C5_collision_survival :
    Reach hashLow mapC5 ∧ mapC5.cap = 16 ∧ mapC5.size = 3 ∧
      lookup hashLow mapC5 1 = some 10 ∧ lookup hashLow mapC5 17 = some 170 ∧
      lookup hashLow mapC5 33 = some 330 ∧
      (erase_key hashLow mapC5 17 = some (mapC5del 17, true) ∧
        (mapC5del 17).size = 2 ∧ ctrlAt (mapC5del 17) 2 = kDeleted ∧
        lookup hashLow (mapC5del 17) 1 = some 10 ∧
        lookup hashLow (mapC5del 17) 33 = some 330 ∧
        lookup hashLow (mapC5del 17) 17 = none) ∧
      (erase_key hashLow mapC5 1 = some (mapC5del 1, true) ∧
        (mapC5del 1).size = 2 ∧ ctrlAt (mapC5del 1) 1 = kDeleted ∧
        lookup hashLow (mapC5del 1) 17 = some 170 ∧
        lookup hashLow (mapC5del 1) 33 = some 330 ∧
        lookup hashLow (mapC5del 1) 1 = none) ∧
      (erase_key hashLow mapC5 33 = some (mapC5del 33, true) ∧
        (mapC5del 33).size = 2 ∧ ctrlAt (mapC5del 33) 3 = kDeleted ∧
        lookup hashLow (mapC5del 33) 1 = some 10 ∧
        lookup hashLow (mapC5del 33) 17 = some 170 ∧
        lookup hashLow (mapC5del 33) 33 = none) := by
  refine ⟨?_, by decide, by decide, by decide, by decide, by decide,
    ⟨by decide, by decide, by decide, by decide, by decide, by decide⟩,
    ⟨by decide, by decide, by decide, by decide, by decide, by decide⟩,
    ⟨by decide, by decide, by decide, by decide, by decide, by decide⟩⟩
  exact Reach_runOps hashLow 16 (by decide) opsC5 mapC5
    (opt_eq_some_getD _ _ (by decide))

/-- C7.  The claim is FALSE of the code (a code bug, admitted by the
source comment in `erase(const_iterator)`): on the reachable table
`mapTwo` (keys 1 and 2 in slots 1 and 2), erasing through the const
iterator at `begin()` (slot 1) returns `end()` even though the valid
entry at slot 2 remains; the non-const overload at the same position
returns the iterator at slot 2. -/
theorem C7_erase_iterator_bug :
    Reach hashId mapTwo ∧ beginIdx mapTwo = 1 ∧ bucketAt mapTwo 1 = some (1, 10) ∧
      erase_const_iter hashId mapTwo 1 = some (mapTwoErased, 16) ∧
      endIdx mapTwoErased = 16 ∧ 0 ≤ ctrlAt mapTwoErased 2 ∧
      bucketAt mapTwoErased 2 = some (2, 20) ∧ find_next_valid mapTwoErased 2 = 2 ∧
      (erase_iter hashId mapTwo 1).map (fun p => p.2) = some 2 := by
  refine ⟨?_, by decide, by decide, by decide, by decide, by decide, by decide,
    by decide, by decide⟩
  exact Reach_runOps hashId 16 (by decide) [.ins 1 10, .ins 2 20] mapTwo
    (opt_eq_some_getD _ _ (by decide))

/-- C8, counterexample.  With seed 1 and length 0, the portable path of
`gxhash64` returns different values for a null pointer and for a non-null
pointer: the claimed pointer-independence of the length-0 result is
false (the null early-exit omits the `state ^= seed << 7` fold). -/
theorem C8_len0_pointer_cex :
    Gx.gxhash64 none 0 1 ≠ Gx.gxhash64 (some []) 0 1 ∧
      Gx.gxhash64 (some []) 0 1 = Gx.gxhash64 (some [0, 1, 2]) 0 1 := by
  exact ⟨by decide, by decide⟩

/-- C9, counterexample.  The first metadata load of a probe is NOT
aligned to the group width: for a digest with `h1 = 5` at capacity 16 the
first group load begins at index 5, and the key inserted by that probe
lands in slot 5 (an aligned probe would have placed it at slot 0). -/
theorem C9_unaligned_probe_cex :
    groupStart 16 (h1 16 (szt (hashFive 99))) 0 = 5 ∧
      ¬ 16 ∣ groupStart 16 (h1 16 (szt (hashFive 99))) 0 ∧
      (emplace hashFive (HM.construct 16) 99 7).map (fun p => (bucketAt p.1 5, p.2))
        = some (some (99, 7), true) := by
  exact ⟨by decide, by decide, by decide⟩

/-- C8, amended.  For every seed: a null pointer with length 0 yields the
seed-derived constant `final_avalanche(seed ^ C)`; a NON-null pointer with
length 0 yields a deterministic seed-derived value independent of the
pointed-to bytes (but, per the counterexample, in general different from
the null-pointer value); and a null pointer with any length > 0 yields
the deterministic seed- and length-derived value
`final_avalanche(seed ^ (len * C mod 2^64))` (release behaviour) rather
than crashing.  Portable path; the shared null-pointer head is
dispatch-independent. -/
theorem C8_gxhash_null_semantics :
    (∀ seed len : Nat, 0 < len →
        Gx.gxhash64 none len seed = Gx.final_avalanche (seed ^^^ ((len * Gx.gxP) % SZ))) ∧
      (∀ (seed : Nat) (bs bs2 : List Nat),
        Gx.gxhash64 (some bs) 0 seed = Gx.gxhash64 (some bs2) 0 seed) ∧
      (∀ seed : Nat, Gx.gxhash64 none 0 seed = Gx.final_avalanche (seed ^^^ Gx.gxP)) := by
  refine ⟨?_, ?_, ?_⟩
  · intro seed len hlen
    simp only [Gx.gxhash64]
    rw [if_neg (by omega)]
  · intro seed bs bs2
    simp only [Gx.gxhash64, Gx.blockLoop, Gx.blockLoopAux]
    norm_num
  · intro seed
    simp [Gx.gxhash64]

/-- Witness for C8's amended theorem: concrete instances of each
conjunct. -/
theorem C8_gxhash_null_semantics_wit :
    Gx.gxhash64 none 3 9 = Gx.final_avalanche (9 ^^^ ((3 * Gx.gxP) % SZ)) ∧
      Gx.gxhash64 (some [1, 2]) 0 9 = Gx.gxhash64 (some [7]) 0 9 ∧
      Gx.gxhash64 none 0 9 = Gx.final_avalanche (9 ^^^ Gx.gxP) :=
  ⟨C8_gxhash_null_semantics.1 9 3 (by decide), C8_gxhash_null_semantics.2.1 9 [1, 2] [7],
    C8_gxhash_null_semantics.2.2 9⟩

/-- C9, amended.  At any power-of-two capacity the first metadata load of
the probe for digest `H` begins at index `H mod capacity` — the home
index, not aligned to the group width in general — and each subsequent
load begins exactly one group width (16) further, modulo the capacity. -/
theorem C9_probe_start_amended (cap H offset t : Nat) (hcap : cap = 16 * 2 ^ t) :
    groupStart cap (h1 cap H) 0 = H % cap ∧
      groupStart cap (h1 cap H) (offset + 16) =
        (groupStart cap (h1 cap H) offset + 16) % cap := by
  have hc2 : cap = 2 ^ (t + 4) := by rw [hcap]; ring
  have hmod : ∀ x : Nat, x &&& (cap - 1) = x % cap := by
    intro x
    calc x &&& (cap - 1) = x &&& (2 ^ (t + 4) - 1) := by rw [hc2]
    _ = x % 2 ^ (t + 4) := Nat.and_pow_two_sub_one_eq_mod x (t + 4)
    _ = x % cap := by rw [← hc2]
  unfold groupStart h1
  rw [hmod H, hmod, hmod, hmod]
  constructor
  · rw [Nat.add_zero, Nat.mod_mod]
  · conv_rhs => rw [Nat.mod_add_mod]
    rw [Nat.add_assoc]

/-- Witness for C9's amended theorem at capacity 16 (`t = 0`), digest 5,
offset 0. -/
theorem C9_probe_start_amended_wit :
    (16 : Nat) = 16 * 2 ^ 0 ∧
      groupStart 16 (h1 16 5) 0 = 5 % 16 ∧
      groupStart 16 (h1 16 5) (0 + 16) = (groupStart 16 (h1 16 5) 0 + 16) % 16 :=
  ⟨by decide, (C9_probe_start_amended 16 5 0 0 (by decide)).1,
    (C9_probe_start_amended 16 5 0 0 (by decide)).2⟩

end ConcreteClaims

section Arith

lemma and_mod_of_pow {cap : Nat} (t : Nat) (hcap : cap = 16 * 2 ^ t) (x : Nat) :
    x &&& (cap - 1) = x % cap := by
  have hc2 : cap = 2 ^ (t + 4) := by rw [hcap]; ring
  calc x &&& (cap - 1) = x &&& (2 ^ (t + 4) - 1) := by rw [hc2]
  _ = x % 2 ^ (t + 4) := Nat.and_pow_two_sub_one_eq_mod x (t + 4)
  _ = x % cap := by rw [← hc2]

lemma cap_pos {cap : Nat} (t : Nat) (hcap : cap = 16 * 2 ^ t) : 0 < cap := by
  rw [hcap]; positivity

lemma sixteen_le_cap {cap : Nat} (t : Nat) (hcap : cap = 16 * 2 ^ t) : 16 ≤ cap := by
  rw [hcap]
  have : 1 ≤ 2 ^ t := Nat.one_le_two_pow
  omega

lemma sixteen_mul_div_cap {cap : Nat} (t : Nat) (hcap : cap = 16 * 2 ^ t) :
    16 * (cap / 16) = cap := by
  rw [hcap]
  omega

lemma probeIdx_lt {cap : Nat} (hpos : 0 < cap) (p n o : Nat) : probeIdx cap p n o < cap :=
  Nat.mod_lt _ hpos

lemma probeIdx_inj {cap : Nat} (t : Nat) (hcap : cap = 16 * 2 ^ t) (p : Nat)
    {n o n2 o2 : Nat} (hn : n < cap / 16) (ho : o < 16) (hn2 : n2 < cap / 16)
    (ho2 : o2 < 16) (h : probeIdx cap p n o = probeIdx cap p n2 o2) :
    n = n2 ∧ o = o2 := by
  have hdiv := sixteen_mul_div_cap t hcap
  have hx : 16 * n + o < cap := by omega
  have hy : 16 * n2 + o2 < cap := by omega
  unfold probeIdx at h
  have h2 : (16 * n + o) % cap = (16 * n2 + o2) % cap :=
    Nat.ModEq.add_left_cancel' p h
  rw [Nat.mod_eq_of_lt hx, Nat.mod_eq_of_lt hy] at h2
  omega

lemma probeIdx_covering {cap : Nat} (t : Nat) (hcap : cap = 16 * 2 ^ t) (p : Nat)
    (hp : p < cap) (e : Nat) (he : e < cap) :
    ∃ n o, n < cap / 16 ∧ o < 16 ∧ probeIdx cap p n o = e := by
  have hdiv := sixteen_mul_div_cap t hcap
  have hpos : 0 < cap := cap_pos t hcap
  set d := (cap + e - p) % cap with hd
  have hdlt : d < cap := Nat.mod_lt _ hpos
  refine ⟨d / 16, d % 16, by omega, by omega, ?_⟩
  have h16 : 16 * (d / 16) + d % 16 = d := by omega
  unfold probeIdx
  rw [h16, hd, Nat.add_mod_mod]
  have hpe : p + (cap + e - p) = cap + e := by omega
  rw [hpe, Nat.add_mod_left, Nat.mod_eq_of_lt he]

end Arith

section ListHelpers

lemma find?_eq_some_of_unique {α : Type _} (l : List α) (p : α → Bool) (a : α)
    (ha : a ∈ l) (hpa : p a = true) (huniq : ∀ b ∈ l, p b = true → b = a) :
    l.find? p = some a := by
  induction l with
  | nil => cases ha
  | cons b l ih =>
    by_cases hb : p b = true
    · have : b = a := huniq b (List.mem_cons_self b l) hb
      subst this
      simp [List.find?_cons, hb]
    · have hbne : b ≠ a := fun h => hb (h ▸ hpa)
      have ha2 : a ∈ l := by
        rcases List.mem_cons.mp ha with h | h
        · exact absurd h.symm hbne
        · exact h
      rw [List.find?_cons]
      simp only [Bool.not_eq_true] at hb
      rw [hb]
      exact ih ha2 (fun c hc hpc => huniq c (List.mem_cons_of_mem b hc) hpc)

lemma countP_range_congr (n : Nat) (f g : Nat → Bool) (h : ∀ i, i < n → f i = g i) :
    (List.range n).countP f = (List.range n).countP g :=
  List.countP_congr (fun i hi => by
    rw [h i (List.mem_range.mp hi)])

lemma countP_range_update_true (n : Nat) : ∀ (i : Nat) (f g : Nat → Bool), i < n →
    (∀ j, j < n → j ≠ i → f j = g j) → f i = true → g i = false →
    (List.range n).countP f = (List.range n).countP g + 1 := by
  induction n with
  | zero => intro i f g hi _ _ _; omega
  | succ n ih =>
    intro i f g hi hne hfi hgi
    rw [List.range_succ, List.countP_append, List.countP_append]
    by_cases hin : i = n
    · subst hin
      have hfg : (List.range i).countP f = (List.range i).countP g :=
        countP_range_congr i f g (fun j hj => hne j (by omega) (by omega))
      have h2 : [i].countP f = 1 := by simp [hfi]
      have h3 : [i].countP g = 0 := by simp [hgi]
      omega
    · have hn : i < n := by omega
      have hfn : f n = g n := hne n (by omega) (fun h => hin h.symm)
      have h4 : [n].countP f = [n].countP g := by
        rw [List.countP_cons, List.countP_cons, hfn]
        simp
      have := ih i f g hn (fun j hj hji => hne j (by omega) hji) hfi hgi
      omega

lemma exists_false_of_countP_range_lt (n : Nat) (f : Nat → Bool)
    (h : (List.range n).countP f < n) : ∃ i, i < n ∧ f i = false := by
  by_contra hcon
  push_neg at hcon
  have : ∀ i ∈ List.range n, f i := by
    intro i hi
    have := hcon i (List.mem_range.mp hi)
    simpa using this
  have := List.countP_eq_length.mpr this
  rw [List.length_range] at this
  omega

lemma countP_pos_of_mem (n i : Nat) (f : Nat → Bool) (hi : i < n) (hfi : f i = true) :
    0 < (List.range n).countP f := by
  have : i ∈ List.range n := List.mem_range.mpr hi
  calc 0 < (List.range n).count i := List.count_pos_iff.mpr this
  _ ≤ (List.range n).countP f := by
    apply List.countP_mono_left
    intro j hj hji
    have : j = i := by simpa using hji
    rw [this, hfi]

lemma getD_set_self {α : Type _} (l : List α) (i : Nat) (a d : α) (h : i < l.length) :
    (l.set i a).getD i d = a := by
  rw [List.getD_eq_getElem?_getD, List.getElem?_set_self (by simpa using h)]
  rfl

lemma getD_set_ne {α : Type _} (l : List α) (i j : Nat) (a d : α) (h : i ≠ j) :
    (l.set i a).getD j d = l.getD j d := by
  rw [List.getD_eq_getElem?_getD, List.getElem?_set_ne h, ← List.getD_eq_getElem?_getD]

lemma getD_replicate {α : Type _} (n : Nat) (a d : α) (i : Nat) (h : i < n) :
    (List.replicate n a).getD i d = a := by
  rw [List.getD_eq_getElem?_getD, List.getElem?_replicate, if_pos h]
  rfl

lemma getD_oob {α : Type _} (l : List α) (i : Nat) (d : α) (h : l.length ≤ i) :
    l.getD i d = d := by
  rw [List.getD_eq_getElem?_getD, List.getElem?_eq_none (by simpa using h)]
  rfl

end ListHelpers

section GroupLemmas

lemma h2_bounds (H : Nat) (hH : H < SZ) : 0 ≤ h2 H ∧ h2 H ≤ 127 := by
  unfold h2 toInt8
  have h57 : H >>> 57 < 128 := by
    rw [Nat.shiftRight_eq_div_pow]
    have hH2 : H < 2 ^ 64 := hH
    have hmul : (128 : Nat) * 2 ^ 57 = 2 ^ 64 := by norm_num
    exact Nat.div_lt_of_lt_mul (by omega)
  have hmod : H >>> 57 % 256 = H >>> 57 := Nat.mod_eq_of_lt (by omega)
  rw [hmod, if_pos (by omega)]
  constructor
  · exact Int.ofNat_nonneg _
  · exact_mod_cast Nat.le_of_lt_succ (by omega)

lemma ctrlAt_wrap (m : HM K V) (t : Nat) (hcap : m.cap = 16 * 2 ^ t)
    (hsent : ∀ j, j < 16 → ctrlAt m (m.cap + j) = ctrlAt m j)
    (g o : Nat) (hg : g < m.cap) (ho : o < 16) :
    ctrlAt m (g + o) = ctrlAt m ((g + o) % m.cap) := by
  have h16 := sixteen_le_cap t hcap
  by_cases h : g + o < m.cap
  · rw [Nat.mod_eq_of_lt h]
  · have hr : g + o = m.cap + (g + o - m.cap) := by omega
    have hrlt : g + o - m.cap < 16 := by omega
    rw [hr, hsent _ hrlt, Nat.add_mod_left, Nat.mod_eq_of_lt (by omega)]

lemma groupStart_lt {cap : Nat} (t : Nat) (hcap : cap = 16 * 2 ^ t) (p offset : Nat) :
    groupStart cap p offset < cap := by
  have h16 := sixteen_le_cap t hcap
  have := Nat.and_le_right (n := p + offset) (m := cap - 1)
  unfold groupStart
  omega

lemma groupStart_eq {cap : Nat} (t : Nat) (hcap : cap = 16 * 2 ^ t) (p n : Nat) :
    groupStart cap p (16 * n) = (p + 16 * n) % cap := by
  unfold groupStart
  exact and_mod_of_pow t hcap _

lemma slotIdx_eq {cap : Nat} (t : Nat) (hcap : cap = 16 * 2 ^ t) (p n o : Nat) :
    (groupStart cap p (16 * n) + o) &&& (cap - 1) = probeIdx cap p n o := by
  rw [groupStart_eq t hcap, and_mod_of_pow t hcap]
  unfold probeIdx
  rw [Nat.mod_add_mod, Nat.add_assoc]

lemma groupByte_probe (m : HM K V) (t : Nat) (hcap : m.cap = 16 * 2 ^ t)
    (hsent : ∀ j, j < 16 → ctrlAt m (m.cap + j) = ctrlAt m j)
    (p n o : Nat) (ho : o < 16) :
    groupByte m (groupStart m.cap p (16 * n)) o = ctrlAt m (probeIdx m.cap p n o) := by
  unfold groupByte
  have hg : groupStart m.cap p (16 * n) < m.cap := groupStart_lt t hcap p _
  rw [ctrlAt_wrap m t hcap hsent _ o hg ho]
  congr 1
  rw [groupStart_eq t hcap]
  unfold probeIdx
  rw [Nat.mod_add_mod, Nat.add_assoc]

lemma matchEmptyNext_none_iff (m : HM K V) (g : Nat) :
    matchEmptyNext m g = none ↔ ∀ j, j < 16 → groupByte m g j ≠ kEmpty := by
  unfold matchEmptyNext
  rw [List.find?_eq_none]
  constructor
  · intro h j hj hc
    exact h j (List.mem_range.mpr hj) (by simp [hc])
  · intro h j hj
    simp only [beq_iff_eq]
    exact h j (List.mem_range.mp hj)

lemma matchEmptyNext_some (m : HM K V) (g e : Nat) (h : matchEmptyNext m g = some e) :
    e < 16 ∧ groupByte m g e = kEmpty := by
  have h1 := List.find?_some h
  have h2 := List.mem_of_find?_eq_some h
  exact ⟨List.mem_range.mp h2, by simpa using h1⟩

lemma matchNegNext_some (m : HM K V) (g d : Nat) (h : matchNegNext m g = some d) :
    d < 16 ∧ groupByte m g d < 0 := by
  have h1 := List.find?_some h
  have h2 := List.mem_of_find?_eq_some h
  exact ⟨List.mem_range.mp h2, by simpa using h1⟩

lemma mem_matchH2 (m : HM K V) (g : Nat) (h2v : Int) (j : Nat) :
    j ∈ matchH2 m g h2v ↔ j < 16 ∧ groupByte m g j = h2v := by
  unfold matchH2
  rw [List.mem_filter, List.mem_range]
  simp [beq_iff_eq]

end GroupLemmas

section StepLemmas

variable [DecidableEq K]

lemma findLoop_step_found (m : HM K V) (k : K) (h2v : Int) (p fuel offset : Nat)
    (fd : Option Nat) (j : Nat)
    (hm : (matchH2 m (groupStart m.cap p offset) h2v).find?
      (fun b => keyAt m ((groupStart m.cap p offset + b) &&& (m.cap - 1)) == some k)
      = some j) :
    findLoop m k h2v p (fuel + 1) offset fd =
      some ⟨(groupStart m.cap p offset + j) &&& (m.cap - 1), true⟩ := by
  rw [findLoop]
  simp only [hm]

lemma findLoop_step_empty (m : HM K V) (k : K) (h2v : Int) (p fuel offset : Nat)
    (fd : Option Nat) (e : Nat)
    (hm : (matchH2 m (groupStart m.cap p offset) h2v).find?
      (fun b => keyAt m ((groupStart m.cap p offset + b) &&& (m.cap - 1)) == some k)
      = none)
    (he : matchEmptyNext m (groupStart m.cap p offset) = some e) :
    findLoop m k h2v p (fuel + 1) offset fd =
      some ⟨fd.getD ((groupStart m.cap p offset + e) &&& (m.cap - 1)), false⟩ := by
  rw [findLoop]
  simp only [hm, he]

lemma findLoop_step_continue2 (m : HM K V) (k : K) (h2v : Int) (p fuel offset : Nat)
    (fd : Option Nat)
    (hm : (matchH2 m (groupStart m.cap p offset) h2v).find?
      (fun b => keyAt m ((groupStart m.cap p offset + b) &&& (m.cap - 1)) == some k)
      = none)
    (he : matchEmptyNext m (groupStart m.cap p offset) = none) :
    ∃ fd2, findLoop m k h2v p (fuel + 1) offset fd =
        findLoop m k h2v p fuel (offset + 16) fd2 ∧
      (fd2 = fd ∨ (fd = none ∧ ∃ dd, dd < 16 ∧
        fd2 = some ((groupStart m.cap p offset + dd) &&& (m.cap - 1)) ∧
        ctrlAt m ((groupStart m.cap p offset + dd) &&& (m.cap - 1)) = kDeleted)) := by
  rw [findLoop]
  simp only [hm, he]
  cases fd with
  | some d => exact ⟨some d, by simp, Or.inl rfl⟩
  | none =>
    cases hneg : matchNegNext m (groupStart m.cap p offset) with
    | none => exact ⟨none, by simp [hneg], Or.inl rfl⟩
    | some dd =>
      by_cases hdel : ctrlAt m ((groupStart m.cap p offset + dd) &&& (m.cap - 1)) = kDeleted
      · refine ⟨some ((groupStart m.cap p offset + dd) &&& (m.cap - 1)), ?_,
          Or.inr ⟨rfl, dd, (matchNegNext_some m _ dd hneg).1, rfl, hdel⟩⟩
        simp [hneg, hdel]
      · refine ⟨none, ?_, Or.inl rfl⟩
        simp only [hneg, Option.isNone_none, if_true]
        rw [if_neg (by simpa using hdel)]

end StepLemmas

section FindLoopProps

variable [DecidableEq K]

/-- A probe exit with `found = true` lands on a slot inside the table
whose metadata byte is the fingerprint and whose bucket holds the
searched key. -/
lemma findLoop_found_props (m : HM K V) (t : Nat) (hcap : m.cap = 16 * 2 ^ t)
    (hsent : ∀ j, j < 16 → ctrlAt m (m.cap + j) = ctrlAt m j)
    (k : K) (h2v : Int) (p : Nat) :
    ∀ fuel offset fd r, findLoop m k h2v p fuel offset fd = some r → r.found = true →
      r.index < m.cap ∧ ctrlAt m r.index = h2v ∧ keyAt m r.index = some k := by
  intro fuel
  induction fuel with
  | zero =>
    intro offset fd r h _
    simp [findLoop] at h
  | succ fuel ih =>
    intro offset fd r h hfound
    cases hm : (matchH2 m (groupStart m.cap p offset) h2v).find?
        (fun b => keyAt m ((groupStart m.cap p offset + b) &&& (m.cap - 1)) == some k) with
    | some j =>
      rw [findLoop_step_found m k h2v p fuel offset fd j hm] at h
      cases h
      have hj := List.find?_some hm
      have hjm := List.mem_of_find?_eq_some hm
      rw [mem_matchH2] at hjm
      obtain ⟨hj16, hjbyte⟩ := hjm
      have hg : groupStart m.cap p offset < m.cap := groupStart_lt t hcap p offset
      have hand : (groupStart m.cap p offset + j) &&& (m.cap - 1)
          = (groupStart m.cap p offset + j) % m.cap := and_mod_of_pow t hcap _
      refine ⟨?_, ?_, ?_⟩
      · simp only [hand]
        exact Nat.mod_lt _ (cap_pos t hcap)
      · show ctrlAt m ((groupStart m.cap p offset + j) &&& (m.cap - 1)) = h2v
        rw [hand, ← ctrlAt_wrap m t hcap hsent _ j hg hj16]
        exact hjbyte
      · simpa using hj
    | none =>
      cases he : matchEmptyNext m (groupStart m.cap p offset) with
      | some e =>
        rw [findLoop_step_empty m k h2v p fuel offset fd e hm he] at h
        cases h
        simp at hfound
      | none =>
        obtain ⟨fd2, heq, _⟩ := findLoop_step_continue2 m k h2v p fuel offset fd hm he
        rw [heq] at h
        exact ih (offset + 16) fd2 r h hfound

/-- If some group within the fuel bound contains an EMPTY byte, the probe
loop exits. -/
lemma findLoop_isSome_of_empty (m : HM K V) (t : Nat) (hcap : m.cap = 16 * 2 ^ t)
    (hsent : ∀ j, j < 16 → ctrlAt m (m.cap + j) = ctrlAt m j)
    (k : K) (h2v : Int) (p : Nat) :
    ∀ fuel s fd, (∃ n, s ≤ n ∧ n < s + fuel ∧ ¬ GroupNoEmpty m p n) →
      (findLoop m k h2v p fuel (16 * s) fd).isSome = true := by
  intro fuel
  induction fuel with
  | zero =>
    intro s fd ⟨n, h1, h2, _⟩
    omega
  | succ fuel ih =>
    intro s fd hex
    cases hm : (matchH2 m (groupStart m.cap p (16 * s)) h2v).find?
        (fun b => keyAt m ((groupStart m.cap p (16 * s) + b) &&& (m.cap - 1)) == some k) with
    | some j =>
      rw [findLoop_step_found m k h2v p fuel (16 * s) fd j hm]
      rfl
    | none =>
      cases he : matchEmptyNext m (groupStart m.cap p (16 * s)) with
      | some e =>
        rw [findLoop_step_empty m k h2v p fuel (16 * s) fd e hm he]
        rfl
      | none =>
        have hnoe : GroupNoEmpty m p s := by
          intro b hb
          rw [← groupByte_probe m t hcap hsent p s b hb]
          exact (matchEmptyNext_none_iff m _).mp he b hb
        obtain ⟨n, hn1, hn2, hn3⟩ := hex
        have hne : s ≠ n := fun h => hn3 (h ▸ hnoe)
        obtain ⟨fd2, heq, _⟩ := findLoop_step_continue2 m k h2v p fuel (16 * s) fd hm he
        rw [heq]
        have h16 : 16 * s + 16 = 16 * (s + 1) := by ring
        rw [h16]
        exact ih (s + 1) fd2 ⟨n, by omega, by omega, hn3⟩

end FindLoopProps

section FindLoopReach

variable [DecidableEq K]

/-- The probe for a stored key returns FOUND at its slot: the groups
before the slot's group contain no EMPTY byte, the slot's byte is the
fingerprint, and no other FULL slot holds the key. -/
lemma findLoop_reaches_stored (m : HM K V) (t : Nat) (hcap : m.cap = 16 * 2 ^ t)
    (hsent : ∀ j, j < 16 → ctrlAt m (m.cap + j) = ctrlAt m j)
    (k : K) (h2v : Int) (hv : 0 ≤ h2v) (p : Nat)
    (n o : Nat) (hn : n < m.cap / 16) (ho : o < 16)
    (hbyte : ctrlAt m (probeIdx m.cap p n o) = h2v)
    (hkey : keyAt m (probeIdx m.cap p n o) = some k)
    (huniq : ∀ i2, i2 < m.cap → 0 ≤ ctrlAt m i2 → keyAt m i2 = some k →
      i2 = probeIdx m.cap p n o)
    (hnoem : ∀ j, j < n → GroupNoEmpty m p j) :
    ∀ fuel s fd, s ≤ n → n - s < fuel →
      findLoop m k h2v p fuel (16 * s) fd = some ⟨probeIdx m.cap p n o, true⟩ := by
  intro fuel
  induction fuel with
  | zero => intro s fd h1 h2; omega
  | succ fuel ih =>
    intro s fd hs hlt
    have hgb : ∀ b, b < 16 →
        groupByte m (groupStart m.cap p (16 * s)) b = ctrlAt m (probeIdx m.cap p s b) :=
      fun b hb => groupByte_probe m t hcap hsent p s b hb
    by_cases hsn : s = n
    · subst hsn
      have hfind : (matchH2 m (groupStart m.cap p (16 * s)) h2v).find?
          (fun b => keyAt m ((groupStart m.cap p (16 * s) + b) &&& (m.cap - 1)) == some k)
          = some o := by
        apply find?_eq_some_of_unique
        · rw [mem_matchH2]
          exact ⟨ho, by rw [hgb o ho, hbyte]⟩
        · rw [slotIdx_eq t hcap]
          simp [hkey]
        · intro b hb hpb
          rw [mem_matchH2] at hb
          obtain ⟨hb16, hbbyte⟩ := hb
          rw [slotIdx_eq t hcap] at hpb
          have hkb : keyAt m (probeIdx m.cap p s b) = some k := by simpa using hpb
          rw [hgb b hb16] at hbbyte
          have hfull : 0 ≤ ctrlAt m (probeIdx m.cap p s b) := hbbyte ▸ hv
          have heq := huniq _ (probeIdx_lt (cap_pos t hcap) p s b) hfull hkb
          exact (probeIdx_inj t hcap p hn hb16 hn ho heq).2
      rw [findLoop_step_found m k h2v p fuel (16 * s) fd o hfind, slotIdx_eq t hcap]
    · have hslt : s < n := by omega
      have hm : (matchH2 m (groupStart m.cap p (16 * s)) h2v).find?
          (fun b => keyAt m ((groupStart m.cap p (16 * s) + b) &&& (m.cap - 1)) == some k)
          = none := by
        rw [List.find?_eq_none]
        intro b hb hpb
        rw [mem_matchH2] at hb
        obtain ⟨hb16, hbbyte⟩ := hb
        rw [slotIdx_eq t hcap] at hpb
        have hkb : keyAt m (probeIdx m.cap p s b) = some k := by simpa using hpb
        rw [hgb b hb16] at hbbyte
        have hfull : 0 ≤ ctrlAt m (probeIdx m.cap p s b) := hbbyte ▸ hv
        have heq := huniq _ (probeIdx_lt (cap_pos t hcap) p s b) hfull hkb
        have := (probeIdx_inj t hcap p (by omega) hb16 hn ho heq).1
        omega
      have he : matchEmptyNext m (groupStart m.cap p (16 * s)) = none := by
        rw [matchEmptyNext_none_iff]
        intro b hb
        rw [hgb b hb]
        exact hnoem s hslt b hb
      obtain ⟨fd2, heq, _⟩ := findLoop_step_continue2 m k h2v p fuel (16 * s) fd hm he
      rw [heq]
      have h16 : 16 * s + 16 = 16 * (s + 1) := by ring
      rw [h16]
      exact ih (s + 1) fd2 (by omega) (by omega)

end FindLoopReach

section FindLoopAbsent

variable [DecidableEq K]

/-- A probe exit with `found = false` returns a slot on the probe path
whose byte is EMPTY or TOMBSTONE, located in a group all of whose
predecessors contain no EMPTY byte. -/
lemma findLoop_absent_props (m : HM K V) (t : Nat) (hcap : m.cap = 16 * 2 ^ t)
    (hsent : ∀ j, j < 16 → ctrlAt m (m.cap + j) = ctrlAt m j)
    (k : K) (h2v : Int) (p : Nat) :
    ∀ fuel s fd r,
      (fd = none ∨ ∃ nd od, nd < s ∧ od < 16 ∧ fd = some (probeIdx m.cap p nd od) ∧
        ctrlAt m (probeIdx m.cap p nd od) = kDeleted ∧ ∀ j, j < nd → GroupNoEmpty m p j) →
      (∀ j, j < s → GroupNoEmpty m p j) →
      findLoop m k h2v p fuel (16 * s) fd = some r → r.found = false →
      ∃ nr og, og < 16 ∧ r.index = probeIdx m.cap p nr og ∧
        (ctrlAt m r.index = kEmpty ∨ ctrlAt m r.index = kDeleted) ∧
        nr < s + fuel ∧ ∀ j, j < nr → GroupNoEmpty m p j := by
  intro fuel
  induction fuel with
  | zero =>
    intro s fd r _ _ h _
    simp [findLoop] at h
  | succ fuel ih =>
    intro s fd r hfd hpre hrun hfound
    have hgb : ∀ b, b < 16 →
        groupByte m (groupStart m.cap p (16 * s)) b = ctrlAt m (probeIdx m.cap p s b) :=
      fun b hb => groupByte_probe m t hcap hsent p s b hb
    cases hm : (matchH2 m (groupStart m.cap p (16 * s)) h2v).find?
        (fun b => keyAt m ((groupStart m.cap p (16 * s) + b) &&& (m.cap - 1)) == some k) with
    | some j =>
      rw [findLoop_step_found m k h2v p fuel (16 * s) fd j hm] at hrun
      cases hrun
      simp at hfound
    | none =>
      cases he : matchEmptyNext m (groupStart m.cap p (16 * s)) with
      | some e =>
        rw [findLoop_step_empty m k h2v p fuel (16 * s) fd e hm he] at hrun
        obtain ⟨he16, hebyte⟩ := matchEmptyNext_some _ _ _ he
        cases hrun
        rcases hfd with rfl | ⟨nd, od, hnd, hod, hfdv, hdel, hprend⟩
        · refine ⟨s, e, he16, ?_, ?_, by omega, hpre⟩
          · show (Option.none).getD ((groupStart m.cap p (16 * s) + e) &&& (m.cap - 1))
              = probeIdx m.cap p s e
            rw [Option.getD_none, slotIdx_eq t hcap]
          · left
            show ctrlAt m ((Option.none).getD
              ((groupStart m.cap p (16 * s) + e) &&& (m.cap - 1))) = kEmpty
            rw [Option.getD_none, slotIdx_eq t hcap, ← hgb e he16]
            exact hebyte
        · subst hfdv
          refine ⟨nd, od, hod, ?_, ?_, by omega, hprend⟩
          · rfl
          · right
            exact hdel
      | none =>
        obtain ⟨fd2, heq, hfd2⟩ := findLoop_step_continue2 m k h2v p fuel (16 * s) fd hm he
        rw [heq] at hrun
        have hnoe : GroupNoEmpty m p s := by
          intro b hb
          rw [← hgb b hb]
          exact (matchEmptyNext_none_iff m _).mp he b hb
        have hpre2 : ∀ j, j < s + 1 → GroupNoEmpty m p j := by
          intro j hj
          rcases Nat.lt_succ_iff_lt_or_eq.mp hj with h | h
          · exact hpre j h
          · exact h ▸ hnoe
        have hfd2p : fd2 = none ∨ ∃ nd od, nd < s + 1 ∧ od < 16 ∧
            fd2 = some (probeIdx m.cap p nd od) ∧
            ctrlAt m (probeIdx m.cap p nd od) = kDeleted ∧
            ∀ j, j < nd → GroupNoEmpty m p j := by
          rcases hfd2 with rfl | ⟨rfl, dd, hdd, hfd2v, hdel⟩
          · rcases hfd with rfl | ⟨nd, od, hnd, hod, hfdv, hdel, hprend⟩
            · exact Or.inl rfl
            · exact Or.inr ⟨nd, od, by omega, hod, hfdv, hdel, hprend⟩
          · right
            refine ⟨s, dd, by omega, hdd, ?_, ?_, hpre⟩
            · rw [hfd2v, slotIdx_eq t hcap]
            · rw [← slotIdx_eq t hcap]
              exact hdel
        have h16 : 16 * s + 16 = 16 * (s + 1) := by ring
        rw [h16] at hrun
        obtain ⟨nr, og, hog, hidx, hbyte2, hnr, hprer⟩ :=
          ih (s + 1) fd2 r hfd2p hpre2 hrun hfound
        exact ⟨nr, og, hog, hidx, hbyte2, by omega, hprer⟩

end FindLoopAbsent

section FindImplLemmas

variable [DecidableEq K]

lemma szt_lt (n : Nat) : szt n < SZ := by
  unfold szt SZ
  exact Nat.mod_lt _ (by positivity)

lemma bucket_of_keyAt (m : HM K V) (i : Nat) (k : K) (h : keyAt m i = some k) :
    ∃ w, bucketAt m i = some (k, w) := by
  unfold keyAt at h
  cases hb : bucketAt m i with
  | none => rw [hb] at h; cases h
  | some e =>
    obtain ⟨a, b⟩ := e
    rw [hb] at h
    simp at h
    subst h
    exact ⟨b, rfl⟩

lemma h1_eq_mod {cap : Nat} (t : Nat) (hcap : cap = 16 * 2 ^ t) (H : Nat) :
    h1 cap H = H % cap := and_mod_of_pow t hcap H

lemma h1_lt {cap : Nat} (t : Nat) (hcap : cap = 16 * 2 ^ t) (H : Nat) : h1 cap H < cap := by
  rw [h1_eq_mod t hcap]
  exact Nat.mod_lt _ (cap_pos t hcap)

/-- Looking up a stored pair finds its slot. -/
lemma find_impl_of_stored (hash : K → Nat) (m : HM K V) (hwf : WF hash m)
    (k : K) (v : V) (hst : storedPair m k v) :
    ∃ i, find_impl m k (szt (hash k)) = some ⟨i, true⟩ ∧ i < m.cap ∧
      0 ≤ ctrlAt m i ∧ bucketAt m i = some (k, v) := by
  obtain ⟨hs, hso⟩ := hwf
  obtain ⟨i, hi, hfull, hbuck⟩ := hst
  have h0 : m.cap ≠ 0 := by omega
  obtain ⟨t, hcap⟩ := hs.pow.resolve_left h0
  obtain ⟨k2, v2, hb2, hf2, hfind⟩ := hso.full_bucket i hi hfull
  rw [hbuck] at hb2
  simp only [Option.some.injEq, Prod.mk.injEq] at hb2
  obtain ⟨rfl, rfl⟩ : k = k2 ∧ v = v2 := hb2
  obtain ⟨n, o, hn, ho, hidx, hpre⟩ := hfind
  subst hidx
  have hH : szt (hash k) < SZ := szt_lt _
  have hv0 := (h2_bounds _ hH).1
  have hkeyi : keyAt m (probeIdx m.cap (szt (hash k) % m.cap) n o) = some k := by
    unfold keyAt
    rw [hbuck]
    rfl
  have huniq : ∀ i2, i2 < m.cap → 0 ≤ ctrlAt m i2 → keyAt m i2 = some k →
      i2 = probeIdx m.cap (szt (hash k) % m.cap) n o := by
    intro i2 hi2 hfull2 hkey2
    obtain ⟨w, hw⟩ := bucket_of_keyAt m i2 k hkey2
    exact hso.inj i2 _ k w v hi2 hi hfull2 hfull hw hbuck
  refine ⟨_, ?_, hi, hfull, hbuck⟩
  unfold find_impl findImplFuel
  rw [if_neg h0, h1_eq_mod t hcap]
  have hrun := findLoop_reaches_stored m t hcap hs.sentinel k (h2 (szt (hash k))) hv0
    (szt (hash k) % m.cap) n o hn ho hf2 hkeyi huniq hpre (m.cap / 16) 0 none
    (Nat.zero_le n) (by omega)
  simpa using hrun


/-- Looking up a stored pair yields its value. -/
lemma lookup_stored (hash : K → Nat) (m : HM K V) (hwf : WF hash m)
    (k : K) (v : V) (hst : storedPair m k v) : lookup hash m k = some v := by
  obtain ⟨i, hfind, hi, hfull, hbuck⟩ := find_impl_of_stored hash m hwf k v hst
  unfold lookup
  rw [hfind]
  simp [hbuck]

/-- FOUND results of `find_impl` point at a FULL slot holding the key. -/
lemma find_impl_found_props (m : HM K V) (hs : Shape m) (k : K) (H : Nat)
    (hH : H < SZ) (r : FindResult) (h : find_impl m k H = some r)
    (hf : r.found = true) :
    r.index < m.cap ∧ ctrlAt m r.index = h2 H ∧ keyAt m r.index = some k := by
  unfold find_impl findImplFuel at h
  by_cases h0 : m.cap = 0
  · rw [if_pos h0] at h
    cases h
    cases hf
  · rw [if_neg h0] at h
    obtain ⟨t, hcap⟩ := hs.pow.resolve_left h0
    exact findLoop_found_props m t hcap hs.sentinel k (h2 H) (h1 m.cap H)
      (m.cap / 16) 0 none r h hf

/-- `find_impl` cannot claim FOUND for a key the table does not store. -/
lemma find_impl_not_found_of_fresh (hash : K → Nat) (m : HM K V) (hwf : WF hash m)
    (k : K) (hfresh : ∀ w, ¬ storedPair m k w) (r : FindResult)
    (h : find_impl m k (szt (hash k)) = some r) : r.found = false := by
  by_contra hc
  simp only [Bool.not_eq_false] at hc
  obtain ⟨hi, hbyte, hkey⟩ := find_impl_found_props m hwf.1 k _ (szt_lt _) r h hc
  obtain ⟨w, hw⟩ := bucket_of_keyAt m r.index k hkey
  have hfull : 0 ≤ ctrlAt m r.index := by
    rw [hbyte]
    exact (h2_bounds _ (szt_lt _)).1
  exact hfresh w ⟨r.index, hi, hfull, hw⟩

/-- ABSENT results of `find_impl` point at an EMPTY or TOMBSTONE slot on
the key's probe path, reached before any EMPTY byte. -/
lemma find_impl_absent_slot (m : HM K V) (hs : Shape m) (h0 : m.cap ≠ 0)
    (k : K) (H : Nat) (r : FindResult) (h : find_impl m k H = some r)
    (hf : r.found = false) :
    r.index < m.cap ∧ (ctrlAt m r.index = kEmpty ∨ ctrlAt m r.index = kDeleted) ∧
      Findable m H r.index := by
  obtain ⟨t, hcap⟩ := hs.pow.resolve_left h0
  unfold find_impl findImplFuel at h
  rw [if_neg h0, h1_eq_mod t hcap] at h
  have habs := findLoop_absent_props m t hcap hs.sentinel k (h2 H) (H % m.cap)
    (m.cap / 16) 0 none r (Or.inl rfl) (by omega) (by simpa using h) hf
  obtain ⟨nr, og, hog, hidx, hbyte, hnr, hpre⟩ := habs
  refine ⟨?_, hbyte, nr, og, by omega, hog, hidx, hpre⟩
  rw [hidx]
  exact probeIdx_lt (cap_pos t hcap) _ nr og

/-- When an EMPTY byte exists, `find_impl` terminates. -/
lemma find_impl_isSome_of_empty (m : HM K V) (hs : Shape m) (h0 : m.cap ≠ 0)
    (k : K) (H : Nat) (hemp : ∃ e, e < m.cap ∧ ctrlAt m e = kEmpty) :
    (find_impl m k H).isSome = true := by
  obtain ⟨t, hcap⟩ := hs.pow.resolve_left h0
  obtain ⟨e, he, hebyte⟩ := hemp
  unfold find_impl findImplFuel
  rw [if_neg h0, h1_eq_mod t hcap]
  obtain ⟨n, o, hn, ho, hidx⟩ := probeIdx_covering t hcap (H % m.cap)
    (Nat.mod_lt _ (cap_pos t hcap)) e he
  have hng : ¬ GroupNoEmpty m (H % m.cap) n := by
    intro hcon
    exact hcon o ho (hidx ▸ hebyte)
  have := findLoop_isSome_of_empty m t hcap hs.sentinel k (h2 H) (H % m.cap)
    (m.cap / 16) 0 none ⟨n, by omega, by omega, hng⟩
  simpa using this

end FindImplLemmas

section WriteSlotLemmas

lemma writeSlot_cap (m : HM K V) (e : Nat) (k : K) (v : V) (b : Int) :
    (writeSlot m e k v b).cap = m.cap := by
  unfold writeSlot
  dsimp only
  split <;> rfl

lemma writeSlot_size (m : HM K V) (e : Nat) (k : K) (v : V) (b : Int) :
    (writeSlot m e k v b).size = m.size := by
  unfold writeSlot
  dsimp only
  split <;> rfl

lemma writeSlot_ctrl_length (m : HM K V) (e : Nat) (k : K) (v : V) (b : Int) :
    (writeSlot m e k v b).ctrl.length = m.ctrl.length := by
  unfold writeSlot
  dsimp only
  split <;> simp

lemma writeSlot_buckets_length (m : HM K V) (e : Nat) (k : K) (v : V) (b : Int) :
    (writeSlot m e k v b).buckets.length = m.buckets.length := by
  unfold writeSlot
  dsimp only
  split <;> simp

lemma writeSlot_gmask_length (m : HM K V) (e : Nat) (k : K) (v : V) (b : Int) :
    (writeSlot m e k v b).gmask.length = m.gmask.length := by
  unfold writeSlot
  dsimp only
  split <;> simp

lemma writeSlot_ctrlAt (m : HM K V) (e : Nat) (k : K) (v : V) (b : Int)
    (hlen : m.ctrl.length = m.cap + 16) (he : e < m.cap) (i : Nat) :
    ctrlAt (writeSlot m e k v b) i =
      if i = e then b else if e < 16 ∧ i = e + m.cap then b else ctrlAt m i := by
  have hcap0 : 0 < m.cap := by omega
  unfold writeSlot ctrlAt
  dsimp only
  by_cases h16 : e < 16
  · rw [if_pos (by unfold kGroupWidth; omega)]
    dsimp only
    by_cases hie : i = e
    · subst hie
      rw [getD_set_ne _ _ _ _ _ (by omega), getD_set_self _ _ _ _ (by omega), if_pos rfl]
    · by_cases his : i = e + m.cap
      · subst his
        rw [getD_set_self _ _ _ _ (by simp; omega)]
        rw [if_neg (by omega), if_pos ⟨h16, rfl⟩]
      · rw [getD_set_ne _ _ _ _ _ (fun h => his h.symm),
          getD_set_ne _ _ _ _ _ (fun h => hie h.symm), if_neg hie,
          if_neg (by tauto)]
  · rw [if_neg (by unfold kGroupWidth; omega)]
    dsimp only
    by_cases hie : i = e
    · subst hie
      rw [getD_set_self _ _ _ _ (by omega), if_pos rfl]
    · rw [getD_set_ne _ _ _ _ _ (fun h => hie h.symm), if_neg hie, if_neg (by tauto)]

lemma writeSlot_bucketAt (m : HM K V) (e : Nat) (k : K) (v : V) (b : Int)
    (hlenb : m.buckets.length = m.cap) (he : e < m.cap) (i : Nat) :
    bucketAt (writeSlot m e k v b) i = if i = e then some (k, v) else bucketAt m i := by
  unfold writeSlot bucketAt
  dsimp only
  have hbk : ∀ mm : HM K V, mm.buckets = m.buckets.set e (some (k, v)) →
      mm.buckets.getD i none = if i = e then some (k, v) else m.buckets.getD i none := by
    intro mm hmm
    rw [hmm]
    by_cases hie : i = e
    · subst hie
      rw [getD_set_self _ _ _ _ (by omega), if_pos rfl]
    · rw [getD_set_ne _ _ _ _ _ (fun h => hie h.symm), if_neg hie]
  split <;> exact hbk _ rfl

end WriteSlotLemmas

section MonoLemmas

lemma GroupNoEmpty_mono (m m2 : HM K V) (hcap : m2.cap = m.cap) (hpos : 0 < m.cap)
    (hpt : ∀ x, x < m.cap → ctrlAt m2 x = ctrlAt m x ∨ ctrlAt m2 x ≠ kEmpty)
    (p n : Nat) (h : GroupNoEmpty m p n) : GroupNoEmpty m2 p n := by
  intro o ho
  rw [hcap]
  rcases hpt (probeIdx m.cap p n o) (probeIdx_lt hpos p n o) with heq | hne
  · rw [heq]
    exact h o ho
  · exact hne

lemma Findable_mono (m m2 : HM K V) (hcap : m2.cap = m.cap) (hpos : 0 < m.cap)
    (hpt : ∀ x, x < m.cap → ctrlAt m2 x = ctrlAt m x ∨ ctrlAt m2 x ≠ kEmpty)
    (H i : Nat) (h : Findable m H i) : Findable m2 H i := by
  obtain ⟨n, o, hn, ho, hidx, hpre⟩ := h
  unfold Findable
  rw [hcap]
  exact ⟨n, o, hn, ho, hidx,
    fun j hj => GroupNoEmpty_mono m m2 hcap hpos hpt _ _ (hpre j hj)⟩

end MonoLemmas

section WritePreserve

lemma writeSlot_pt (m : HM K V) (e : Nat) (k : K) (v : V) (b : Int)
    (hlen : m.ctrl.length = m.cap + 16) (he : e < m.cap) (hb : b ≠ kEmpty) :
    ∀ x, x < m.cap →
      ctrlAt (writeSlot m e k v b) x = ctrlAt m x ∨ ctrlAt (writeSlot m e k v b) x ≠ kEmpty := by
  intro x hx
  rw [writeSlot_ctrlAt m e k v b hlen he x]
  by_cases hxe : x = e
  · rw [if_pos hxe]
    exact Or.inr hb
  · rw [if_neg hxe, if_neg (by omega)]
    exact Or.inl rfl

lemma writeSlot_sentinel (m : HM K V) (e : Nat) (k : K) (v : V) (b : Int)
    (hsent : ∀ j, j < 16 → ctrlAt m (m.cap + j) = ctrlAt m j)
    (hlen : m.ctrl.length = m.cap + 16) (he : e < m.cap) (hc16 : 16 ≤ m.cap) :
    ∀ j, j < 16 → ctrlAt (writeSlot m e k v b) (m.cap + j) = ctrlAt (writeSlot m e k v b) j := by
  intro j hj
  rw [writeSlot_ctrlAt m e k v b hlen he, writeSlot_ctrlAt m e k v b hlen he]
  by_cases hje : j = e
  · subst hje
    rw [if_pos rfl, if_neg (by omega), if_pos ⟨by omega, by omega⟩]
  · rw [if_neg hje, if_neg (fun hcon => by omega), if_neg (by omega),
      if_neg (fun hcon : e < 16 ∧ j = e + m.cap => by omega)]
    exact hsent j hj

lemma writeSlot_byteRange (m : HM K V) (e : Nat) (k : K) (v : V) (b : Int)
    (hrange : ∀ i, i < m.cap + 16 →
      ctrlAt m i = kEmpty ∨ ctrlAt m i = kDeleted ∨ (0 ≤ ctrlAt m i ∧ ctrlAt m i ≤ 127))
    (hlen : m.ctrl.length = m.cap + 16) (he : e < m.cap) (hb : 0 ≤ b ∧ b ≤ 127) :
    ∀ i, i < m.cap + 16 →
      ctrlAt (writeSlot m e k v b) i = kEmpty ∨ ctrlAt (writeSlot m e k v b) i = kDeleted ∨
        (0 ≤ ctrlAt (writeSlot m e k v b) i ∧ ctrlAt (writeSlot m e k v b) i ≤ 127) := by
  intro i hi
  rw [writeSlot_ctrlAt m e k v b hlen he]
  by_cases hie : i = e
  · rw [if_pos hie]
    exact Or.inr (Or.inr hb)
  · by_cases his : e < 16 ∧ i = e + m.cap
    · rw [if_neg hie, if_pos his]
      exact Or.inr (Or.inr hb)
    · rw [if_neg hie, if_neg his]
      exact hrange i hi

lemma writeSlot_countFull (m : HM K V) (e : Nat) (k : K) (v : V) (b : Int)
    (hlen : m.ctrl.length = m.cap + 16) (he : e < m.cap)
    (hold : ctrlAt m e < 0) (hb : 0 ≤ b) :
    countFull (writeSlot m e k v b) = countFull m + 1 := by
  unfold countFull
  rw [writeSlot_cap]
  apply countP_range_update_true m.cap e _ _ he
  · intro j hj hje
    rw [writeSlot_ctrlAt m e k v b hlen he j, if_neg hje,
      if_neg (fun hcon : e < 16 ∧ j = e + m.cap => by omega)]
  · rw [writeSlot_ctrlAt m e k v b hlen he e, if_pos rfl]
    simpa using hb
  · simpa using hold

lemma writeSlot_noDeleted (m : HM K V) (e : Nat) (k : K) (v : V) (b : Int)
    (hnd : NoDeleted m) (hlen : m.ctrl.length = m.cap + 16) (he : e < m.cap)
    (hb : b ≠ kDeleted) : NoDeleted (writeSlot m e k v b) := by
  intro i hi
  rw [writeSlot_cap] at hi
  rw [writeSlot_ctrlAt m e k v b hlen he]
  by_cases hie : i = e
  · rw [if_pos hie]
    exact hb
  · by_cases his : e < 16 ∧ i = e + m.cap
    · rw [if_neg hie, if_pos his]
      exact hb
    · rw [if_neg hie, if_neg his]
      exact hnd i hi

lemma writeSlot_stored_iff (m : HM K V) (e : Nat) (k : K) (v : V) (b : Int)
    (hlen : m.ctrl.length = m.cap + 16) (hlenb : m.buckets.length = m.cap)
    (he : e < m.cap) (hold : ctrlAt m e < 0) (hb : 0 ≤ b) :
    ∀ k2 v2, storedPair (writeSlot m e k v b) k2 v2 ↔
      (storedPair m k2 v2 ∨ (k2 = k ∧ v2 = v)) := by
  intro k2 v2
  constructor
  · rintro ⟨i, hi, hfull, hbuck⟩
    rw [writeSlot_cap] at hi
    rw [writeSlot_ctrlAt m e k v b hlen he] at hfull
    rw [writeSlot_bucketAt m e k v b hlenb he] at hbuck
    by_cases hie : i = e
    · rw [if_pos hie] at hbuck
      right
      simp only [Option.some.injEq, Prod.mk.injEq] at hbuck
      exact ⟨hbuck.1.symm, hbuck.2.symm⟩
    · rw [if_neg hie, if_neg (by omega)] at hfull
      rw [if_neg hie] at hbuck
      exact Or.inl ⟨i, hi, hfull, hbuck⟩
  · rintro (⟨i, hi, hfull, hbuck⟩ | ⟨hk, hv⟩)
    · have hie : i ≠ e := fun h => by rw [h] at hfull; omega
      refine ⟨i, by rw [writeSlot_cap]; exact hi, ?_, ?_⟩
      · rw [writeSlot_ctrlAt m e k v b hlen he, if_neg hie, if_neg (by omega)]
        exact hfull
      · rw [writeSlot_bucketAt m e k v b hlenb he, if_neg hie]
        exact hbuck
    · refine ⟨e, by rw [writeSlot_cap]; exact he, ?_, ?_⟩
      · rw [writeSlot_ctrlAt m e k v b hlen he, if_pos rfl]
        exact hb
      · rw [writeSlot_bucketAt m e k v b hlenb he, if_pos rfl, hk, hv]

end WritePreserve

section WriteStoredOK

variable [DecidableEq K]

lemma writeSlot_StoredOK (hash : K → Nat) (m : HM K V) (t : Nat)
    (hcap : m.cap = 16 * 2 ^ t)
    (hlen : m.ctrl.length = m.cap + 16) (hlenb : m.buckets.length = m.cap)
    (hso : StoredOK hash m)
    (k : K) (v : V) (e : Nat) (he : e < m.cap) (hold : ctrlAt m e < 0)
    (hfind : Findable m (szt (hash k)) e)
    (hfresh : ∀ w, ¬ storedPair m k w) :
    StoredOK hash (writeSlot m e k v (h2 (szt (hash k)))) := by
  set b := h2 (szt (hash k)) with hbdef
  have hb0 : 0 ≤ b := (h2_bounds _ (szt_lt _)).1
  have hpos : 0 < m.cap := cap_pos t hcap
  have hcapW := writeSlot_cap m e k v b
  have hbne : b ≠ kEmpty := by
    intro hcon
    rw [hcon] at hb0
    simp [kEmpty] at hb0
  have hpt := writeSlot_pt m e k v b hlen he hbne
  constructor
  · intro i hi hfull
    rw [hcapW] at hi
    by_cases hie : i = e
    · refine ⟨k, v, ?_, ?_, ?_⟩
      · rw [writeSlot_bucketAt m e k v b hlenb he, if_pos hie]
      · rw [writeSlot_ctrlAt m e k v b hlen he, if_pos hie]
      · rw [hie]
        exact Findable_mono m _ hcapW hpos hpt _ _ hfind
    · have hfull2 : 0 ≤ ctrlAt m i := by
        rw [writeSlot_ctrlAt m e k v b hlen he, if_neg hie,
          if_neg (fun hcon : e < 16 ∧ i = e + m.cap => by omega)] at hfull
        exact hfull
      obtain ⟨k2, v2, hb2, hf2, hfind2⟩ := hso.full_bucket i hi hfull2
      refine ⟨k2, v2, ?_, ?_, ?_⟩
      · rw [writeSlot_bucketAt m e k v b hlenb he, if_neg hie]
        exact hb2
      · rw [writeSlot_ctrlAt m e k v b hlen he, if_neg hie,
          if_neg (fun hcon : e < 16 ∧ i = e + m.cap => by omega)]
        exact hf2
      · exact Findable_mono m _ hcapW hpos hpt _ _ hfind2
  · intro i j k2 v2 w hi hj hfi hfj hbi hbj
    rw [hcapW] at hi hj
    rw [writeSlot_bucketAt m e k v b hlenb he] at hbi hbj
    rw [writeSlot_ctrlAt m e k v b hlen he] at hfi hfj
    by_cases hie : i = e <;> by_cases hje : j = e
    · rw [hie, hje]
    · rw [if_pos hie] at hbi
      rw [if_neg hje, if_neg (fun hcon : e < 16 ∧ j = e + m.cap => by omega)] at hfj
      rw [if_neg hje] at hbj
      simp only [Option.some.injEq, Prod.mk.injEq] at hbi
      exact absurd ⟨j, hj, hfj, hbi.1 ▸ hbj⟩ (hfresh w)
    · rw [if_pos hje] at hbj
      rw [if_neg hie, if_neg (fun hcon : e < 16 ∧ i = e + m.cap => by omega)] at hfi
      rw [if_neg hie] at hbi
      simp only [Option.some.injEq, Prod.mk.injEq] at hbj
      exact absurd ⟨i, hi, hfi, hbj.1 ▸ hbi⟩ (hfresh v2)
    · rw [if_neg hie, if_neg (fun hcon : e < 16 ∧ i = e + m.cap => by omega)] at hfi
      rw [if_neg hje, if_neg (fun hcon : e < 16 ∧ j = e + m.cap => by omega)] at hfj
      rw [if_neg hie] at hbi
      rw [if_neg hje] at hbj
      exact hso.inj i j k2 v2 w hi hj hfi hfj hbi hbj

end WriteStoredOK

section AllocLemmas

lemma alloc_ctrlAt (m : HM K V) (c : Nat) (hc : c ≠ 0) (i : Nat) (hi : i < c + 16) :
    ctrlAt ( allocate_and_initialize m c) i = kEmpty := by
  unfold allocate_and_initialize ctrlAt
  rw [if_neg hc]
  exact getD_replicate _ _ _ _ hi

lemma alloc_bucketAt (m : HM K V) (c : Nat) (hc : c ≠ 0) (i : Nat) :
    bucketAt ( allocate_and_initialize m c) i = none := by
  unfold allocate_and_initialize bucketAt
  rw [if_neg hc]
  dsimp only
  by_cases hi : i < c
  · exact getD_replicate _ _ _ _ hi
  · exact getD_oob _ _ _ (by simp; omega)

lemma alloc_cap (m : HM K V) (c : Nat) (hc : c ≠ 0) :
    ( allocate_and_initialize m c).cap = c := by
  unfold allocate_and_initialize
  rw [if_neg hc]

lemma alloc_size (m : HM K V) (c : Nat) (hc : c ≠ 0) :
    ( allocate_and_initialize m c).size = m.size := by
  unfold allocate_and_initialize
  rw [if_neg hc]

lemma alloc_ctrl_length (m : HM K V) (c : Nat) (hc : c ≠ 0) :
    ( allocate_and_initialize m c).ctrl.length = c + 16 := by
  unfold allocate_and_initialize
  rw [if_neg hc]
  simp

lemma alloc_buckets_length (m : HM K V) (c : Nat) (hc : c ≠ 0) :
    ( allocate_and_initialize m c).buckets.length = c := by
  unfold allocate_and_initialize
  rw [if_neg hc]
  simp

lemma alloc_countFull (m : HM K V) (c : Nat) (hc : c ≠ 0) :
    countFull ( allocate_and_initialize m c) = 0 := by
  unfold countFull
  rw [alloc_cap m c hc]
  rw [List.countP_eq_zero]
  intro i hi
  have := alloc_ctrlAt m c hc i (by have := List.mem_range.mp hi; omega)
  simp [this, kEmpty]

end AllocLemmas

section RehashLoopLemmas

lemma rehashLoop_step_some (acc : HM K V) (p fuel offset : Nat) (e : Nat)
    (he : matchEmptyNext acc (groupStart acc.cap p offset) = some e) :
    rehashLoop acc p (fuel + 1) offset =
      some ((groupStart acc.cap p offset + e) &&& (acc.cap - 1)) := by
  rw [rehashLoop]
  simp only [he]

lemma rehashLoop_step_none (acc : HM K V) (p fuel offset : Nat)
    (he : matchEmptyNext acc (groupStart acc.cap p offset) = none) :
    rehashLoop acc p (fuel + 1) offset = rehashLoop acc p fuel (offset + 16) := by
  rw [rehashLoop]
  simp only [he]

lemma rehashLoop_isSome (acc : HM K V) (t : Nat) (hcap : acc.cap = 16 * 2 ^ t)
    (hsent : ∀ j, j < 16 → ctrlAt acc (acc.cap + j) = ctrlAt acc j) (p : Nat) :
    ∀ fuel s, (∃ n, s ≤ n ∧ n < s + fuel ∧ ¬ GroupNoEmpty acc p n) →
      (rehashLoop acc p fuel (16 * s)).isSome = true := by
  intro fuel
  induction fuel with
  | zero =>
    intro s ⟨n, h1, h2, _⟩
    omega
  | succ fuel ih =>
    intro s hex
    cases he : matchEmptyNext acc (groupStart acc.cap p (16 * s)) with
    | some e =>
      rw [rehashLoop_step_some acc p fuel (16 * s) e he]
      rfl
    | none =>
      have hnoe : GroupNoEmpty acc p s := by
        intro b hb
        rw [← groupByte_probe acc t hcap hsent p s b hb]
        exact (matchEmptyNext_none_iff acc _).mp he b hb
      obtain ⟨n, hn1, hn2, hn3⟩ := hex
      have hne : s ≠ n := fun h => hn3 (h ▸ hnoe)
      rw [rehashLoop_step_none acc p fuel (16 * s) he]
      have h16 : 16 * s + 16 = 16 * (s + 1) := by ring
      rw [h16]
      exact ih (s + 1) ⟨n, by omega, by omega, hn3⟩

lemma rehashLoop_props (acc : HM K V) (t : Nat) (hcap : acc.cap = 16 * 2 ^ t)
    (hsent : ∀ j, j < 16 → ctrlAt acc (acc.cap + j) = ctrlAt acc j) (p : Nat) :
    ∀ fuel s e, (∀ j, j < s → GroupNoEmpty acc p j) →
      rehashLoop acc p fuel (16 * s) = some e →
      ∃ n o, o < 16 ∧ e = probeIdx acc.cap p n o ∧ ctrlAt acc e = kEmpty ∧
        n < s + fuel ∧ ∀ j, j < n → GroupNoEmpty acc p j := by
  intro fuel
  induction fuel with
  | zero =>
    intro s e _ h
    simp [rehashLoop] at h
  | succ fuel ih =>
    intro s e hpre h
    cases he : matchEmptyNext acc (groupStart acc.cap p (16 * s)) with
    | some e2 =>
      rw [rehashLoop_step_some acc p fuel (16 * s) e2 he] at h
      obtain ⟨he16, hebyte⟩ := matchEmptyNext_some acc _ e2 he
      cases h
      refine ⟨s, e2, he16, slotIdx_eq t hcap p s e2, ?_, by omega, hpre⟩
      rw [slotIdx_eq t hcap p s e2, ← groupByte_probe acc t hcap hsent p s e2 he16]
      exact hebyte
    | none =>
      have hnoe : GroupNoEmpty acc p s := by
        intro b hb
        rw [← groupByte_probe acc t hcap hsent p s b hb]
        exact (matchEmptyNext_none_iff acc _).mp he b hb
      rw [rehashLoop_step_none acc p fuel (16 * s) he] at h
      have h16 : 16 * s + 16 = 16 * (s + 1) := by ring
      rw [h16] at h
      have hpre2 : ∀ j, j < s + 1 → GroupNoEmpty acc p j := by
        intro j hj
        rcases Nat.lt_succ_iff_lt_or_eq.mp hj with hlt | heq
        · exact hpre j hlt
        · exact heq ▸ hnoe
      obtain ⟨n, o, ho, hidx, hbyte, hn, hpren⟩ := ih (s + 1) e hpre2 h
      exact ⟨n, o, ho, hidx, hbyte, by omega, hpren⟩

end RehashLoopLemmas

section BelowLemmas

lemma countFullBelow_cap (m : HM K V) : countFullBelow m m.cap = countFull m := rfl

lemma countFullBelow_zero (m : HM K V) : countFullBelow m 0 = 0 := rfl

lemma countFullBelow_succ_full (m : HM K V) (b : Nat) (h : 0 ≤ ctrlAt m b) :
    countFullBelow m (b + 1) = countFullBelow m b + 1 := by
  unfold countFullBelow
  rw [List.range_succ, List.countP_append]
  simp [h]

lemma countFullBelow_succ_notfull (m : HM K V) (b : Nat) (h : ¬ 0 ≤ ctrlAt m b) :
    countFullBelow m (b + 1) = countFullBelow m b := by
  unfold countFullBelow
  rw [List.range_succ, List.countP_append]
  simp [h]

lemma countFullBelow_le (m : HM K V) (a c : Nat) (h : a ≤ c) :
    countFullBelow m a ≤ countFullBelow m c := by
  unfold countFullBelow
  obtain ⟨d, rfl⟩ := Nat.le.dest h
  rw [List.range_add, List.countP_append]
  omega

lemma storedPairBelow_cap_iff (m : HM K V) (k : K) (v : V) :
    storedPairBelow m m.cap k v ↔ storedPair m k v := by
  unfold storedPairBelow storedPair
  constructor
  · rintro ⟨i, _, hi, hfull, hbuck⟩
    exact ⟨i, hi, hfull, hbuck⟩
  · rintro ⟨i, hi, hfull, hbuck⟩
    exact ⟨i, hi, hi, hfull, hbuck⟩

lemma storedPairBelow_zero (m : HM K V) (k : K) (v : V) :
    ¬ storedPairBelow m 0 k v := by
  rintro ⟨i, hi, _⟩
  omega

lemma storedPairBelow_succ_full (m : HM K V) (b : Nat) (hb : b < m.cap)
    (hfull : 0 ≤ ctrlAt m b) (k0 : K) (v0 : V)
    (hbuck : bucketAt m b = some (k0, v0)) (k : K) (v : V) :
    storedPairBelow m (b + 1) k v ↔
      (storedPairBelow m b k v ∨ (k = k0 ∧ v = v0)) := by
  constructor
  · rintro ⟨i, hib, hi, hf, hbk⟩
    by_cases hie : i = b
    · subst hie
      rw [hbuck] at hbk
      simp only [Option.some.injEq, Prod.mk.injEq] at hbk
      exact Or.inr ⟨hbk.1.symm, hbk.2.symm⟩
    · exact Or.inl ⟨i, by omega, hi, hf, hbk⟩
  · rintro (⟨i, hib, hi, hf, hbk⟩ | ⟨rfl2, rfl3⟩)
    · exact ⟨i, by omega, hi, hf, hbk⟩
    · exact ⟨b, by omega, hb, hfull, by rw [hbuck, rfl2, rfl3]⟩

lemma storedPairBelow_succ_notfull (m : HM K V) (b : Nat)
    (hnot : ¬ 0 ≤ ctrlAt m b) (k : K) (v : V) :
    storedPairBelow m (b + 1) k v ↔ storedPairBelow m b k v := by
  constructor
  · rintro ⟨i, hib, hi, hf, hbk⟩
    have hie : i ≠ b := fun h => hnot (h ▸ hf)
    exact ⟨i, by omega, hi, hf, hbk⟩
  · rintro ⟨i, hib, hi, hf, hbk⟩
    exact ⟨i, by omega, hi, hf, hbk⟩

end BelowLemmas

section RehashFold

variable [DecidableEq K]

lemma growCap2_ne_zero (c : Nat) : growCap2 c ≠ 0 := by
  unfold growCap2 kGroupWidth
  split <;> omega

lemma growCap2_pow (c : Nat) (h : c = 0 ∨ ∃ t, c = 16 * 2 ^ t) :
    ∃ t2, growCap2 c = 16 * 2 ^ t2 := by
  unfold growCap2 kGroupWidth
  rcases h with rfl | ⟨t, rfl⟩
  · exact ⟨0, by norm_num⟩
  · rw [if_neg (by positivity)]
    exact ⟨t + 1, by ring⟩

lemma RehashInv_skip (hash : K → Nat) (old acc : HM K V) (b : Nat)
    (hinv : RehashInv hash old acc b) (hnot : ¬ 0 ≤ ctrlAt old b) :
    RehashInv hash old acc (b + 1) := by
  obtain ⟨h1, h2, h3, h4, h5, h6, h7, h8, h9⟩ := hinv
  refine ⟨h1, h2, h3, h4, h5, h6, ?_, h8, ?_⟩
  · rw [countFullBelow_succ_notfull old b hnot]
    exact h7
  · intro k v
    rw [storedPairBelow_succ_notfull old b hnot]
    exact h9 k v

lemma placeOne_ok (hash : K → Nat) (old : HM K V) (hwfold : WF hash old)
    (acc : HM K V) (b : Nat) (hb : b < old.cap)
    (hinv : RehashInv hash old acc b) (hfull : 0 ≤ ctrlAt old b) :
    ∃ acc2, placeOne hash old acc b = some acc2 ∧ RehashInv hash old acc2 (b + 1) := by
  obtain ⟨hsOld, hsoOld⟩ := hwfold
  have hold0 : old.cap ≠ 0 := by omega
  obtain ⟨t, htcap⟩ := hsOld.pow.resolve_left hold0
  obtain ⟨t2, hcap2⟩ : ∃ t2, acc.cap = 16 * 2 ^ t2 := by
    rw [hinv.capEq]
    exact growCap2_pow old.cap hsOld.pow
  have hpos2 : 0 < acc.cap := cap_pos t2 hcap2
  obtain ⟨k, v, hbuck, hfprint, hfindOld⟩ := hsoOld.full_bucket b hb hfull
  set H := szt (hash k) with hHdef
  -- headroom: an EMPTY byte exists in acc
  have hcount : countFull acc < acc.cap := by
    have h1 : countFull acc = countFullBelow old b := hinv.countEq
    have h2 : countFullBelow old b ≤ countFull old :=
      countFullBelow_le old b old.cap (by omega)
    have h3 : countFull old = old.size := hsOld.sizeEq.symm
    have h4 : 8 * old.size ≤ 7 * old.cap := hsOld.load.resolve_left hold0
    have h5 : acc.cap = growCap2 old.cap := hinv.capEq
    unfold growCap2 at h5
    rw [if_neg hold0] at h5
    omega
  obtain ⟨eidx, heidx, hebyte⟩ : ∃ i, i < acc.cap ∧ ctrlAt acc i = kEmpty := by
    obtain ⟨i, hi, hfalse⟩ := exists_false_of_countP_range_lt acc.cap _ hcount
    refine ⟨i, hi, ?_⟩
    simp only [decide_eq_false_iff_not, Int.not_le] at hfalse
    rcases hinv.noDel i (by omega) with h | h
    · exact h
    · omega
  -- the rehash probe succeeds
  have hp : h1 acc.cap H < acc.cap := h1_lt t2 hcap2 H
  obtain ⟨n0, o0, hn0, ho0, hio⟩ := probeIdx_covering t2 hcap2 (H % acc.cap)
    (Nat.mod_lt _ hpos2) eidx heidx
  have hng : ¬ GroupNoEmpty acc (H % acc.cap) n0 := fun hcon => hcon o0 ho0 (hio ▸ hebyte)
  have hsome : (rehashLoop acc (h1 acc.cap H) (acc.cap / 16) 0).isSome = true := by
    rw [h1_eq_mod t2 hcap2]
    have := rehashLoop_isSome acc t2 hcap2 hinv.sentinel (H % acc.cap)
      (acc.cap / 16) 0 ⟨n0, by omega, by omega, hng⟩
    simpa using this
  obtain ⟨e, he⟩ := Option.isSome_iff_exists.mp hsome
  have heprops := by
    refine rehashLoop_props acc t2 hcap2 hinv.sentinel (H % acc.cap)
      (acc.cap / 16) 0 e (by omega) ?_
    rw [h1_eq_mod t2 hcap2] at he
    simpa using he
  obtain ⟨ne, oe, hoe, heidx2, hebyte2, hne, hpree⟩ := heprops
  have helt : e < acc.cap := by
    rw [heidx2]
    exact probeIdx_lt hpos2 _ ne oe
  have hfindE : Findable acc H e :=
    ⟨ne, oe, by omega, hoe, heidx2, hpree⟩
  -- k is fresh in acc
  have hfresh : ∀ w, ¬ storedPair acc k w := by
    intro w hw
    obtain ⟨i, hib, hi, hf, hbk⟩ := (hinv.storedIff k w).mp hw
    have := hsoOld.inj i b k w v hi hb hf hfull hbk hbuck
    omega
  -- the write
  refine ⟨writeSlot acc e k v (h2 H), ?_, ?_⟩
  · unfold placeOne
    simp only [hbuck]
    rw [← hHdef, he]
  · have hb127 := h2_bounds H (szt_lt _)
    have hkE : ctrlAt acc e < 0 := by
      rw [hebyte2]
      simp [kEmpty]
    have hc16 : 16 ≤ acc.cap := sixteen_le_cap t2 hcap2
    refine ⟨?_, ?_, ?_, ?_, ?_, ?_, ?_, ?_, ?_⟩
    · rw [writeSlot_cap]
      exact hinv.capEq
    · rw [writeSlot_size]
      exact hinv.sizeEq
    · rw [writeSlot_ctrl_length, writeSlot_cap]
      exact hinv.ctrlLen
    · rw [writeSlot_buckets_length, writeSlot_cap]
      exact hinv.bucketsLen
    · have := writeSlot_sentinel acc e k v (h2 H) hinv.sentinel hinv.ctrlLen helt hc16
      intro j hj
      rw [writeSlot_cap]
      exact this j hj
    · intro i hi
      rw [writeSlot_cap] at hi
      rw [writeSlot_ctrlAt acc e k v (h2 H) hinv.ctrlLen helt]
      by_cases hie : i = e
      · rw [if_pos hie]
        exact Or.inr hb127
      · by_cases his : e < 16 ∧ i = e + acc.cap
        · rw [if_neg hie, if_pos his]
          exact Or.inr hb127
        · rw [if_neg hie, if_neg his]
          exact hinv.noDel i hi
    · rw [writeSlot_countFull acc e k v (h2 H) hinv.ctrlLen helt hkE hb127.1,
        hinv.countEq, countFullBelow_succ_full old b hfull]
    · exact writeSlot_StoredOK hash acc t2 hcap2 hinv.ctrlLen hinv.bucketsLen
        hinv.stored k v e helt hkE hfindE hfresh
    · intro k2 v2
      rw [writeSlot_stored_iff acc e k v (h2 H) hinv.ctrlLen hinv.bucketsLen helt hkE
        hb127.1 k2 v2, hinv.storedIff k2 v2,
        storedPairBelow_succ_full old b hb hfull k v hbuck k2 v2]

end RehashFold

section ResizeOk

variable [DecidableEq K]

lemma rehashAll_ok (hash : K → Nat) (old : HM K V) (hwfold : WF hash old) :
    ∀ (len b : Nat) (acc : HM K V), b + len ≤ old.cap → RehashInv hash old acc b →
      ∃ acc2, rehashAll hash old acc (List.range' b len) = some acc2 ∧
        RehashInv hash old acc2 (b + len) := by
  intro len
  induction len with
  | zero =>
    intro b acc _ hinv
    exact ⟨acc, rfl, hinv⟩
  | succ len ih =>
    intro b acc hble hinv
    show ∃ acc2, rehashAll hash old acc (b :: List.range' (b + 1) len) = some acc2 ∧ _
    by_cases hfull : 0 ≤ ctrlAt old b
    · obtain ⟨acc1, hplace, hinv1⟩ := placeOne_ok hash old hwfold acc b (by omega) hinv hfull
      obtain ⟨acc2, hrest, hinv2⟩ := ih (b + 1) acc1 (by omega) hinv1
      refine ⟨acc2, ?_, ?_⟩
      · rw [rehashAll, if_pos hfull, hplace]
        exact hrest
      · have hbl : b + 1 + len = b + (len + 1) := by omega
        rw [← hbl]
        exact hinv2
    · have hinv1 := RehashInv_skip hash old acc b hinv hfull
      obtain ⟨acc2, hrest, hinv2⟩ := ih (b + 1) acc (by omega) hinv1
      refine ⟨acc2, ?_, ?_⟩
      · rw [rehashAll, if_neg hfull]
        exact hrest
      · have hbl : b + 1 + len = b + (len + 1) := by omega
        rw [← hbl]
        exact hinv2

lemma resize_ok (hash : K → Nat) (m : HM K V) (hwf : WF hash m) :
    ∃ m2, resize_and_rehash hash m = some m2 ∧ WF hash m2 ∧ NoDeleted m2 ∧
      m2.cap = growCap2 m.cap ∧ m2.size = m.size ∧
      (∀ k v, storedPair m2 k v ↔ storedPair m k v) := by
  obtain ⟨hs, hso⟩ := hwf
  set c := growCap2 m.cap with hc
  have hc0 : c ≠ 0 := growCap2_ne_zero m.cap
  set acc0 := allocate_and_initialize m c with hacc0
  have hacap : acc0.cap = c := alloc_cap m c hc0
  have hbytes : ∀ i, i < c + 16 → ctrlAt acc0 i = kEmpty := fun i hi => alloc_ctrlAt m c hc0 i hi
  have hnofull : ∀ i, i < acc0.cap → ¬ 0 ≤ ctrlAt acc0 i := by
    intro i hi hcon
    rw [hbytes i (by omega)] at hcon
    simp [kEmpty] at hcon
  have hinv0 : RehashInv hash m acc0 0 := by
    refine ⟨by rw [hacap], alloc_size m c hc0, by rw [alloc_ctrl_length m c hc0, hacap],
      by rw [alloc_buckets_length m c hc0, hacap], ?_, ?_, ?_, ?_, ?_⟩
    · intro j hj
      rw [hacap, hbytes (c + j) (by omega), hbytes j (by omega)]
    · intro i hi
      rw [hacap] at hi
      exact Or.inl (hbytes i hi)
    · rw [alloc_countFull m c hc0, countFullBelow_zero]
    · constructor
      · intro i hi hfull
        exact absurd hfull (hnofull i hi)
      · intro i j k v w hi hj hfi _ _ _
        exact absurd hfi (hnofull i hi)
    · intro k v
      constructor
      · rintro ⟨i, hi, hfull, _⟩
        exact absurd hfull (hnofull i hi)
      · intro h
        exact absurd h (storedPairBelow_zero m k v)
  have hfold := rehashAll_ok hash m ⟨hs, hso⟩ m.cap 0 acc0 (by omega) hinv0
  obtain ⟨m2, hrun, hinv⟩ := hfold
  rw [Nat.zero_add] at hinv
  have hm2cap0 : m2.cap ≠ 0 := by
    rw [hinv.capEq]
    exact growCap2_ne_zero m.cap
  have hcount : countFull m2 = countFull m := by
    rw [hinv.countEq, countFullBelow_cap]
  have hnd : NoDeleted m2 := by
    intro i hi
    rcases hinv.noDel i hi with h | h
    · rw [h]
      simp [kEmpty, kDeleted]
    · intro hcon
      rw [hcon] at h
      simp [kDeleted] at h
  refine ⟨m2, ?_, ⟨?_, hinv.stored⟩, hnd, hinv.capEq, hinv.sizeEq, ?_⟩
  · unfold resize_and_rehash
    rw [List.range_eq_range']
    show rehashAll hash m ( allocate_and_initialize m (if m.cap = 0 then kGroupWidth else m.cap * 2)) (List.range' 0 m.cap) = some m2
    have : (if m.cap = 0 then kGroupWidth else m.cap * 2) = c := by
      rw [hc]
      unfold growCap2
      rfl
    rw [this]
    exact hrun
  · refine ⟨Or.inr (growCap2_pow m.cap hs.pow |>.imp (fun t2 h => by rw [hinv.capEq, h])),
      fun h => absurd h hm2cap0, fun h => absurd h hm2cap0, fun _ => hinv.ctrlLen,
      fun _ => hinv.bucketsLen, hinv.sentinel, ?_, ?_, ?_, fun h => absurd h hm2cap0⟩
    · intro i hi
      rcases hinv.noDel i hi with h | h
      · exact Or.inl h
      · exact Or.inr (Or.inr h)
    · rw [hinv.sizeEq, hcount, ← hs.sizeEq]
    · right
      have hload := hs.load
      have hsz : m2.size = m.size := hinv.sizeEq
      have hcapEq : m2.cap = growCap2 m.cap := hinv.capEq
      unfold growCap2 kGroupWidth at hcapEq
      by_cases h0 : m.cap = 0
      · have : m.size = 0 := by
          rw [hs.sizeEq]
          unfold countFull
          rw [h0]
          rfl
        rw [hsz, this]
        omega
      · rw [if_neg h0] at hcapEq
        rcases hload with h | h
        · omega
        · omega
  · intro k v
    rw [hinv.storedIff k v, storedPairBelow_cap_iff]

end ResizeOk

section EmplaceLemmas

variable [DecidableEq K]

lemma setSize_StoredOK (hash : K → Nat) (m : HM K V) (s : Nat)
    (h : StoredOK hash m) : StoredOK hash ({ m with size := s } : HM K V) :=
  ⟨h.full_bucket, h.inj⟩

lemma exists_empty_of_noDeleted (m : HM K V) (hs : Shape m) (hnd : NoDeleted m)
    (hlt : countFull m < m.cap) : ∃ e, e < m.cap ∧ ctrlAt m e = kEmpty := by
  have hlt2 : (List.range m.cap).countP (fun i => decide (0 ≤ ctrlAt m i)) < m.cap := hlt
  obtain ⟨i, hi, hfalse⟩ := exists_false_of_countP_range_lt m.cap _ hlt2
  refine ⟨i, hi, ?_⟩
  simp only [decide_eq_false_iff_not, not_le] at hfalse
  rcases hs.byteRange i (by omega) with h | h | h
  · exact h
  · exact absurd h (hnd i (by omega))
  · omega

lemma size_lt_cap_of_load (m : HM K V) (hload : 8 * m.size ≤ 7 * m.cap)
    (h0 : m.cap ≠ 0) : m.size < m.cap := by
  omega

lemma load_succ_of_not_needs (m : HM K V) (t : Nat) (hcap : m.cap = 16 * 2 ^ t)
    (hns : ¬ needsResize m) : 8 * (m.size + 1) ≤ 7 * m.cap := by
  unfold needsResize at hns
  push_neg at hns
  obtain ⟨h0, hlt⟩ := hns
  have h2t : 0 < 2 ^ t := Nat.two_pow_pos t
  omega

lemma size_zero_of_cap_zero (m : HM K V) (hs : Shape m) (h0 : m.cap = 0) :
    m.size = 0 := by
  rw [hs.sizeEq]
  unfold countFull
  rw [h0]
  rfl

lemma load_succ_after_resize (m m1 : HM K V) (hs : Shape m)
    (hcap1 : m1.cap = growCap2 m.cap) (hsz1 : m1.size = m.size) :
    8 * (m1.size + 1) ≤ 7 * m1.cap := by
  by_cases h0 : m.cap = 0
  · have hsz := size_zero_of_cap_zero m hs h0
    rw [hcap1, hsz1, hsz]
    unfold growCap2
    rw [if_pos h0]
    unfold kGroupWidth
    omega
  · obtain ⟨t, hcap⟩ := hs.pow.resolve_left h0
    have hload := hs.load.resolve_left h0
    have h2t : 0 < 2 ^ t := Nat.two_pow_pos t
    rw [hcap1, hsz1]
    unfold growCap2
    rw [if_neg h0]
    omega

lemma fresh_of_find_not_found (hash : K → Nat) (m : HM K V) (hwf : WF hash m)
    (k : K) (r : FindResult) (hfind : find_impl m k (szt (hash k)) = some r)
    (hnf : r.found = false) : ∀ w, ¬ storedPair m k w := by
  intro w hst
  obtain ⟨i, hfi, _, _, _⟩ := find_impl_of_stored hash m hwf k w hst
  rw [hfind] at hfi
  simp only [Option.some.injEq] at hfi
  rw [hfi] at hnf
  simp at hnf

lemma insDone_ok (hash : K → Nat) (m1 : HM K V) (hwf1 : WF hash m1)
    (k : K) (v : V) (r : FindResult)
    (hfind : find_impl m1 k (szt (hash k)) = some r) (hnf : r.found = false)
    (hload : 8 * (m1.size + 1) ≤ 7 * m1.cap) :
    WF hash (insDone hash m1 r.index k v) ∧
    (NoDeleted m1 → NoDeleted (insDone hash m1 r.index k v)) ∧
    (insDone hash m1 r.index k v).size = m1.size + 1 ∧
    (insDone hash m1 r.index k v).cap = m1.cap ∧
    (∀ k2 v2, storedPair (insDone hash m1 r.index k v) k2 v2 ↔
      (storedPair m1 k2 v2 ∨ (k2 = k ∧ v2 = v))) := by
  obtain ⟨hs, hso⟩ := hwf1
  have h0 : m1.cap ≠ 0 := by omega
  obtain ⟨t, hcap⟩ := hs.pow.resolve_left h0
  have h2t : 0 < 2 ^ t := Nat.two_pow_pos t
  have hc16 : 16 ≤ m1.cap := by omega
  have hfresh := fresh_of_find_not_found hash m1 ⟨hs, hso⟩ k r hfind hnf
  obtain ⟨he, hbyte, hfnd⟩ := find_impl_absent_slot m1 hs h0 k _ r hfind hnf
  have hold : ctrlAt m1 r.index < 0 := by
    rcases hbyte with h | h <;> rw [h] <;> simp [kEmpty, kDeleted]
  have hlen := hs.ctrlLen h0
  have hlenb := hs.bucketsLen h0
  set b := h2 (szt (hash k)) with hbdef
  have hb := h2_bounds (szt (hash k)) (szt_lt _)
  rw [← hbdef] at hb
  have hbD : b ≠ kDeleted := by
    intro hcon
    rw [hcon] at hb
    simp [kDeleted] at hb
  set W := writeSlot m1 r.index k v b with hW
  have hszW : W.size = m1.size := writeSlot_size m1 r.index k v b
  have hcapW : W.cap = m1.cap := writeSlot_cap m1 r.index k v b
  have hcf : countFull W = countFull m1 + 1 :=
    writeSlot_countFull m1 r.index k v b hlen he hold hb.1
  have hsoW : StoredOK hash W :=
    writeSlot_StoredOK hash m1 t hcap hlen hlenb hso k v r.index he hold hfnd hfresh
  have hshape : Shape (insDone hash m1 r.index k v) := by
    refine ⟨Or.inr ⟨t, ?_⟩, ?_, ?_, ?_, ?_, ?_, ?_, ?_, ?_, ?_⟩
    · show W.cap = 16 * 2 ^ t
      rw [hcapW]
      exact hcap
    · intro hcon
      exact absurd (hcapW.symm.trans hcon) h0
    · intro hcon
      exact absurd (hcapW.symm.trans hcon) h0
    · intro _
      show W.ctrl.length = W.cap + 16
      rw [writeSlot_ctrl_length, hcapW, hlen]
    · intro _
      show W.buckets.length = W.cap
      rw [writeSlot_buckets_length, hcapW, hlenb]
    · show ∀ j, j < 16 → ctrlAt W (W.cap + j) = ctrlAt W j
      rw [hcapW]
      exact writeSlot_sentinel m1 r.index k v b hs.sentinel hlen he hc16
    · show ∀ i, i < W.cap + 16 → _
      rw [hcapW]
      exact writeSlot_byteRange m1 r.index k v b hs.byteRange hlen he hb
    · show W.size + 1 = countFull W
      rw [hszW, hcf, hs.sizeEq]
    · right
      show 8 * (W.size + 1) ≤ 7 * W.cap
      rw [hszW, hcapW]
      exact hload
    · intro hcon
      exact absurd (hcapW.symm.trans hcon) h0
  refine ⟨⟨hshape, setSize_StoredOK hash W (W.size + 1) hsoW⟩, ?_, ?_, ?_, ?_⟩
  · intro hnd
    exact writeSlot_noDeleted m1 r.index k v b hnd hlen he hbD
  · show W.size + 1 = m1.size + 1
    rw [hszW]
  · exact hcapW
  · exact writeSlot_stored_iff m1 r.index k v b hlen hlenb he hold hb.1

lemma emplace_step (hash : K → Nat) (m : HM K V) (k : K) (v : V) :
    emplace hash m k v =
      match (if needsResize m then resize_and_rehash hash m else some m) with
      | none => none
      | some m1 =>
        match find_impl m1 k (szt (hash k)) with
        | none => none
        | some r =>
          if r.found then some (m1, false)
          else some (insDone hash m1 r.index k v, true) := rfl

lemma emplace_fresh (hash : K → Nat) (m : HM K V) (hwf : WF hash m)
    (hnd : NoDeleted m) (k : K) (v : V)
    (hfresh : ∀ w, ¬ storedPair m k w) :
    ∃ m2, emplace hash m k v = some (m2, true) ∧ WF hash m2 ∧ NoDeleted m2 ∧
      m2.size = m.size + 1 ∧ m2.cap = capAfterIns m.cap m.size ∧
      (∀ k2 v2, storedPair m2 k2 v2 ↔ (storedPair m k2 v2 ∨ (k2 = k ∧ v2 = v))) := by
  by_cases hns : needsResize m
  · obtain ⟨m1, hres, hwf1, hnd1, hcap1, hsz1, hiff1⟩ := resize_ok hash m hwf
    have hload : 8 * (m1.size + 1) ≤ 7 * m1.cap :=
      load_succ_after_resize m m1 hwf.1 hcap1 hsz1
    have h01 : m1.cap ≠ 0 := by omega
    have hfresh1 : ∀ w, ¬ storedPair m1 k w := fun w hst => hfresh w ((hiff1 k w).mp hst)
    have hslt : countFull m1 < m1.cap := by
      have := hwf1.1.sizeEq
      omega
    have hemp := exists_empty_of_noDeleted m1 hwf1.1 hnd1 hslt
    have hsome := find_impl_isSome_of_empty m1 hwf1.1 h01 k (szt (hash k)) hemp
    obtain ⟨r, hfind⟩ := Option.isSome_iff_exists.mp hsome
    have hnf : r.found = false := find_impl_not_found_of_fresh hash m1 hwf1 k hfresh1 r hfind
    obtain ⟨hwf2, hnd2, hsz2, hcap2, hiff2⟩ :=
      insDone_ok hash m1 hwf1 k v r hfind hnf hload
    refine ⟨insDone hash m1 r.index k v, ?_, hwf2, hnd2 hnd1, by omega, ?_, ?_⟩
    · rw [emplace_step, if_pos hns, hres]
      dsimp only
      rw [hfind]
      dsimp only
      rw [if_neg (by simp [hnf])]
    · rw [hcap2, hcap1]
      unfold capAfterIns
      rw [if_pos (show m.cap = 0 ∨ 7 * m.cap ≤ 8 * m.size from hns)]
    · intro k2 v2
      rw [hiff2 k2 v2, hiff1 k2 v2]
  · have h0 : m.cap ≠ 0 := fun h => hns (Or.inl h)
    obtain ⟨t, hcap⟩ := hwf.1.pow.resolve_left h0
    have hload : 8 * (m.size + 1) ≤ 7 * m.cap := load_succ_of_not_needs m t hcap hns
    have hslt : countFull m < m.cap := by
      have := hwf.1.sizeEq
      omega
    have hemp := exists_empty_of_noDeleted m hwf.1 hnd hslt
    have hsome := find_impl_isSome_of_empty m hwf.1 h0 k (szt (hash k)) hemp
    obtain ⟨r, hfind⟩ := Option.isSome_iff_exists.mp hsome
    have hnf : r.found = false := find_impl_not_found_of_fresh hash m hwf k hfresh r hfind
    obtain ⟨hwf2, hnd2, hsz2, hcap2, hiff2⟩ :=
      insDone_ok hash m hwf k v r hfind hnf hload
    refine ⟨insDone hash m r.index k v, ?_, hwf2, hnd2 hnd, hsz2, ?_, hiff2⟩
    · rw [emplace_step, if_neg hns]
      dsimp only
      rw [hfind]
      dsimp only
      rw [if_neg (by simp [hnf])]
    · rw [hcap2]
      unfold capAfterIns
      rw [if_neg (show ¬ (m.cap = 0 ∨ 7 * m.cap ≤ 8 * m.size) from hns)]

lemma emplace_WF_of_some (hash : K → Nat) (m : HM K V) (hwf : WF hash m)
    (k : K) (v : V) (m2 : HM K V) (ins : Bool)
    (h : emplace hash m k v = some (m2, ins)) : WF hash m2 := by
  rw [emplace_step] at h
  rcases hstep : (if needsResize m then resize_and_rehash hash m else some m) with _ | m1
  · rw [hstep] at h
    cases h
  · rw [hstep] at h
    dsimp only at h
    have hwf1 : WF hash m1 := by
      by_cases hns : needsResize m
      · rw [if_pos hns] at hstep
        obtain ⟨m1b, hres, hwf1, _⟩ := resize_ok hash m hwf
        rw [hres] at hstep
        cases hstep
        exact hwf1
      · rw [if_neg hns] at hstep
        cases hstep
        exact hwf
    rcases hfind : find_impl m1 k (szt (hash k)) with _ | r
    · rw [hfind] at h
      cases h
    · rw [hfind] at h
      dsimp only at h
      by_cases hfound : r.found = true
      · rw [if_pos (by simp [hfound])] at h
        cases h
        exact hwf1
      · have hnf : r.found = false := by
          cases hr : r.found
          · rfl
          · exact absurd hr hfound
        rw [if_neg (by simp [hnf])] at h
        have hload : 8 * (m1.size + 1) ≤ 7 * m1.cap := by
          by_cases hns : needsResize m
          · rw [if_pos hns] at hstep
            obtain ⟨m1b, hres, _, _, hcapb, hszb, _⟩ := resize_ok hash m hwf
            rw [hres] at hstep
            cases hstep
            exact load_succ_after_resize m m1 hwf.1 hcapb hszb
          · rw [if_neg hns] at hstep
            cases hstep
            have h0 : m.cap ≠ 0 := fun hh => hns (Or.inl hh)
            obtain ⟨t, hcap⟩ := hwf.1.pow.resolve_left h0
            exact load_succ_of_not_needs m t hcap hns
        obtain ⟨hwf2, _, _, _, _⟩ := insDone_ok hash m1 hwf1 k v r hfind hnf hload
        cases h
        exact hwf2

end EmplaceLemmas

section EraseLemmas

variable [DecidableEq K]

lemma erase_key_step (hash : K → Nat) (m : HM K V) (key : K) :
    erase_key hash m key =
      match find_impl m key (szt (hash key)) with
      | none => none
      | some r => if r.found then some (eraseAt m r.index, true)
                  else some (m, false) := rfl

lemma eraseAt_cap (m : HM K V) (e : Nat) : (eraseAt m e).cap = m.cap := by
  unfold eraseAt
  dsimp only
  split <;> split <;> rfl

lemma eraseAt_size (m : HM K V) (e : Nat) : (eraseAt m e).size = m.size - 1 := by
  unfold eraseAt
  dsimp only
  split <;> split <;> rfl

lemma eraseAt_buckets (m : HM K V) (e : Nat) : (eraseAt m e).buckets = m.buckets := by
  unfold eraseAt
  dsimp only
  split <;> split <;> rfl

lemma eraseAt_ctrl (m : HM K V) (e : Nat) :
    (eraseAt m e).ctrl =
      if e + m.cap < m.cap + kGroupWidth
        then (m.ctrl.set e kDeleted).set (e + m.cap) kDeleted
        else m.ctrl.set e kDeleted := by
  unfold eraseAt
  dsimp only
  by_cases hcond : e + m.cap < m.cap + kGroupWidth
  · rw [if_pos hcond, if_pos hcond]
    split <;> rfl
  · rw [if_neg hcond, if_neg hcond]
    split <;> rfl

lemma eraseAt_bucketAt (m : HM K V) (e i : Nat) :
    bucketAt (eraseAt m e) i = bucketAt m i := by
  unfold bucketAt
  rw [eraseAt_buckets]

lemma eraseAt_ctrlAt (m : HM K V) (e : Nat)
    (hlen : m.ctrl.length = m.cap + 16) (he : e < m.cap) (i : Nat) :
    ctrlAt (eraseAt m e) i =
      if i = e then kDeleted
      else if e < 16 ∧ i = e + m.cap then kDeleted
      else ctrlAt m i := by
  have hcap0 : 0 < m.cap := by omega
  unfold ctrlAt
  rw [eraseAt_ctrl]
  by_cases h16 : e < 16
  · rw [if_pos (by unfold kGroupWidth; omega)]
    by_cases hie : i = e
    · subst hie
      rw [getD_set_ne _ _ _ _ _ (by omega), getD_set_self _ _ _ _ (by omega), if_pos rfl]
    · by_cases his : i = e + m.cap
      · subst his
        rw [getD_set_self _ _ _ _ (by simp; omega)]
        rw [if_neg (by omega), if_pos ⟨h16, rfl⟩]
      · rw [getD_set_ne _ _ _ _ _ (fun h => his h.symm),
          getD_set_ne _ _ _ _ _ (fun h => hie h.symm), if_neg hie,
          if_neg (by tauto)]
  · rw [if_neg (by unfold kGroupWidth; omega)]
    by_cases hie : i = e
    · subst hie
      rw [getD_set_self _ _ _ _ (by omega), if_pos rfl]
    · rw [getD_set_ne _ _ _ _ _ (fun h => hie h.symm), if_neg hie, if_neg (by tauto)]

lemma eraseAt_WF (hash : K → Nat) (m : HM K V) (hwf : WF hash m)
    (e : Nat) (he : e < m.cap) (hfull : 0 ≤ ctrlAt m e) :
    WF hash (eraseAt m e) ∧ (eraseAt m e).size = m.size - 1 ∧
      (eraseAt m e).cap = m.cap ∧
      (∀ k2 v2, storedPair (eraseAt m e) k2 v2 ↔
        (storedPair m k2 v2 ∧ bucketAt m e ≠ some (k2, v2))) := by
  obtain ⟨hs, hso⟩ := hwf
  have h0 : m.cap ≠ 0 := by omega
  obtain ⟨t, hcap⟩ := hs.pow.resolve_left h0
  have h2t : 0 < 2 ^ t := Nat.two_pow_pos t
  have hc16 : 16 ≤ m.cap := by omega
  have hlen := hs.ctrlLen h0
  have hlenb := hs.bucketsLen h0
  have hcapE := eraseAt_cap m e
  have hszE := eraseAt_size m e
  have hpt : ∀ x, x < m.cap →
      ctrlAt (eraseAt m e) x = ctrlAt m x ∨ ctrlAt (eraseAt m e) x ≠ kEmpty := by
    intro x hx
    rw [eraseAt_ctrlAt m e hlen he x]
    by_cases hxe : x = e
    · rw [if_pos hxe]
      right
      simp [kDeleted, kEmpty]
    · rw [if_neg hxe, if_neg (by omega)]
      exact Or.inl rfl
  have hcf : countFull m = countFull (eraseAt m e) + 1 := by
    unfold countFull
    rw [hcapE]
    apply countP_range_update_true m.cap e _ _ he
    · intro j hj hje
      rw [eraseAt_ctrlAt m e hlen he j, if_neg hje,
        if_neg (fun hcon : e < 16 ∧ j = e + m.cap => by omega)]
    · simpa using hfull
    · rw [eraseAt_ctrlAt m e hlen he e, if_pos rfl]
      simp [kDeleted]
  have hfull1 : 1 ≤ countFull m := by
    unfold countFull
    exact countP_pos_of_mem m.cap e _ he (by simpa using hfull)
  have hctrlAt := eraseAt_ctrlAt m e hlen he
  have hshape : Shape (eraseAt m e) := by
    refine ⟨Or.inr ⟨t, by rw [hcapE]; exact hcap⟩, ?_, ?_, ?_, ?_, ?_, ?_, ?_, ?_, ?_⟩
    · intro hcon
      exact absurd (hcapE.symm.trans hcon) h0
    · intro hcon
      exact absurd (hcapE.symm.trans hcon) h0
    · intro _
      show (eraseAt m e).ctrl.length = (eraseAt m e).cap + 16
      rw [eraseAt_ctrl, hcapE]
      split <;> simp [hlen]
    · intro _
      rw [eraseAt_buckets, hcapE, hlenb]
    · intro j hj
      rw [hcapE, hctrlAt (m.cap + j), hctrlAt j]
      by_cases hje : j = e
      · subst hje
        rw [if_pos rfl, if_neg (by omega), if_pos ⟨by omega, by omega⟩]
      · rw [if_neg hje, if_neg (fun hcon => by omega), if_neg (by omega),
          if_neg (fun hcon : e < 16 ∧ j = e + m.cap => by omega)]
        exact hs.sentinel j hj
    · intro i hi
      rw [hcapE] at hi
      rw [hctrlAt i]
      by_cases hie : i = e
      · rw [if_pos hie]
        right
        left
        rfl
      · by_cases his : e < 16 ∧ i = e + m.cap
        · rw [if_neg hie, if_pos his]
          right
          left
          rfl
        · rw [if_neg hie, if_neg his]
          exact hs.byteRange i hi
    · rw [hszE, hs.sizeEq]
      omega
    · right
      rw [hszE, hcapE]
      rcases hs.load with h | h
      · omega
      · omega
    · intro hcon
      exact absurd (hcapE.symm.trans hcon) h0
  have hstored : StoredOK hash (eraseAt m e) := by
    constructor
    · intro i hi hfulli
      rw [hcapE] at hi
      have hie : i ≠ e := by
        intro hcon
        rw [hctrlAt i, if_pos hcon] at hfulli
        simp [kDeleted] at hfulli
      have hfull2 : 0 ≤ ctrlAt m i := by
        rw [hctrlAt i, if_neg hie, if_neg (by omega)] at hfulli
        exact hfulli
      obtain ⟨k2, v2, hb2, hf2, hfind2⟩ := hso.full_bucket i hi hfull2
      refine ⟨k2, v2, ?_, ?_, ?_⟩
      · rw [eraseAt_bucketAt]
        exact hb2
      · rw [hctrlAt i, if_neg hie, if_neg (by omega)]
        exact hf2
      · exact Findable_mono m _ hcapE (by omega) hpt _ _ hfind2
    · intro i j k2 v2 w hi hj hfi hfj hbi hbj
      rw [hcapE] at hi hj
      rw [eraseAt_bucketAt] at hbi hbj
      have hie : i ≠ e := by
        intro hcon
        rw [hctrlAt i, if_pos hcon] at hfi
        simp [kDeleted] at hfi
      have hje : j ≠ e := by
        intro hcon
        rw [hctrlAt j, if_pos hcon] at hfj
        simp [kDeleted] at hfj
      rw [hctrlAt i, if_neg hie, if_neg (by omega)] at hfi
      rw [hctrlAt j, if_neg hje, if_neg (by omega)] at hfj
      exact hso.inj i j k2 v2 w hi hj hfi hfj hbi hbj
  refine ⟨⟨hshape, hstored⟩, hszE, hcapE, ?_⟩
  intro k2 v2
  constructor
  · rintro ⟨i, hi, hfulli, hbuck⟩
    rw [hcapE] at hi
    rw [eraseAt_bucketAt] at hbuck
    have hie : i ≠ e := by
      intro hcon
      rw [hctrlAt i, if_pos hcon] at hfulli
      simp [kDeleted] at hfulli
    rw [hctrlAt i, if_neg hie, if_neg (by omega)] at hfulli
    refine ⟨⟨i, hi, hfulli, hbuck⟩, ?_⟩
    intro hcon
    obtain ⟨ke, ve, hbe, hfe, _⟩ := hso.full_bucket e he hfull
    exact hie (hso.inj i e k2 v2 v2 hi he hfulli hfull hbuck hcon)
  · rintro ⟨⟨i, hi, hfulli, hbuck⟩, hne⟩
    have hie : i ≠ e := by
      intro hcon
      rw [hcon] at hbuck
      exact hne hbuck
    refine ⟨i, by rw [hcapE]; exact hi, ?_, ?_⟩
    · rw [hctrlAt i, if_neg hie, if_neg (by omega)]
      exact hfulli
    · rw [eraseAt_bucketAt]
      exact hbuck

lemma erase_key_WF_of_some (hash : K → Nat) (m : HM K V) (hwf : WF hash m)
    (key : K) (m2 : HM K V) (b : Bool)
    (h : erase_key hash m key = some (m2, b)) : WF hash m2 := by
  rw [erase_key_step] at h
  rcases hfind : find_impl m key (szt (hash key)) with _ | r
  · rw [hfind] at h
    cases h
  · rw [hfind] at h
    dsimp only at h
    by_cases hfound : r.found = true
    · rw [if_pos (by simp [hfound])] at h
      obtain ⟨hi, _, _⟩ := find_impl_found_props m hwf.1 key _ (szt_lt _) r hfind hfound
      have hfull : 0 ≤ ctrlAt m r.index := by
        obtain ⟨_, hbyte, _⟩ := find_impl_found_props m hwf.1 key _ (szt_lt _) r hfind hfound
        rw [hbyte]
        exact (h2_bounds _ (szt_lt _)).1
      obtain ⟨hwf2, _, _, _⟩ := eraseAt_WF hash m hwf r.index hi hfull
      cases h
      exact hwf2
    · have hnf : r.found = false := by
        cases hr : r.found
        · rfl
        · exact absurd hr hfound
      rw [if_neg (by simp [hnf])] at h
      cases h
      exact hwf

end EraseLemmas

section OpWrappers

variable [DecidableEq K]

lemma bracket_fst_eq_emplace_fst (hash : K → Nat) (m : HM K V) (k : K) (d : V) :
    (bracket hash m k d).map Prod.fst = (emplace hash m k d).map Prod.fst := by
  unfold bracket emplace
  rcases hstep : (if needsResize m then resize_and_rehash hash m else some m) with _ | m1
  · rfl
  · dsimp only
    rcases hfind : find_impl m1 k (szt (hash k)) with _ | r
    · rfl
    · dsimp only
      by_cases hfound : r.found = true
      · rw [if_pos (by simp [hfound]), if_pos (by simp [hfound])]
        rfl
      · rw [if_neg (by simp [hfound]), if_neg (by simp [hfound])]
        rfl

lemma bracket_WF_of_some (hash : K → Nat) (m : HM K V) (hwf : WF hash m)
    (k : K) (d : V) (m2 : HM K V) (val : V)
    (h : bracket hash m k d = some (m2, val)) : WF hash m2 := by
  have hfst : (emplace hash m k d).map Prod.fst = some m2 := by
    rw [← bracket_fst_eq_emplace_fst, h]
    rfl
  rcases hemp : emplace hash m k d with _ | p
  · rw [hemp] at hfst
    cases hfst
  · rw [hemp] at hfst
    have hp : p.1 = m2 := Option.some.inj hfst
    exact hp ▸ emplace_WF_of_some hash m hwf k d p.1 p.2 (by rw [hemp])

lemma erase_iter_WF_of_some (hash : K → Nat) (m : HM K V) (hwf : WF hash m)
    (i : Nat) (m2 : HM K V) (j : Nat)
    (h : erase_iter hash m i = some (m2, j)) : WF hash m2 := by
  unfold erase_iter at h
  by_cases hie : i = m.cap
  · rw [if_pos hie] at h
    simp only [Option.some.injEq, Prod.mk.injEq] at h
    exact h.1 ▸ hwf
  · rw [if_neg hie] at h
    rcases hbuck : bucketAt m i with _ | p
    · rw [hbuck] at h
      cases h
    · rw [hbuck] at h
      dsimp only at h
      rcases hdel : erase_key hash m p.1 with _ | q
      · rw [hdel] at h
        cases h
      · rw [hdel] at h
        simp only [Option.some.injEq, Prod.mk.injEq] at h
        exact h.1 ▸ erase_key_WF_of_some hash m hwf p.1 q.1 q.2 (by rw [hdel])

lemma erase_const_iter_WF_of_some (hash : K → Nat) (m : HM K V) (hwf : WF hash m)
    (i : Nat) (m2 : HM K V) (j : Nat)
    (h : erase_const_iter hash m i = some (m2, j)) : WF hash m2 := by
  unfold erase_const_iter at h
  by_cases hie : i = m.cap
  · rw [if_pos hie] at h
    simp only [Option.some.injEq, Prod.mk.injEq] at h
    exact h.1 ▸ hwf
  · rw [if_neg hie] at h
    rcases hbuck : bucketAt m i with _ | p
    · rw [hbuck] at h
      cases h
    · rw [hbuck] at h
      dsimp only at h
      rcases hdel : erase_key hash m p.1 with _ | q
      · rw [hdel] at h
        cases h
      · rw [hdel] at h
        simp only [Option.some.injEq, Prod.mk.injEq] at h
        exact h.1 ▸ erase_key_WF_of_some hash m hwf p.1 q.1 q.2 (by rw [hdel])

lemma extract_key_WF_of_some (hash : K → Nat) (m : HM K V) (hwf : WF hash m)
    (k : K) (m2 : HM K V) (res : Option (K × V))
    (h : extract_key hash m k = some (m2, res)) : WF hash m2 := by
  unfold extract_key at h
  rcases hfind : find_impl m k (szt (hash k)) with _ | r
  · rw [hfind] at h
    cases h
  · rw [hfind] at h
    dsimp only at h
    by_cases hfound : r.found = true
    · rw [if_pos (by simp [hfound])] at h
      rcases hbuck : bucketAt m r.index with _ | p
      · rw [hbuck] at h
        cases h
      · rw [hbuck] at h
        dsimp only at h
        rcases hdel : erase_const_iter hash m r.index with _ | q
        · rw [hdel] at h
          cases h
        · rw [hdel] at h
          simp only [Option.some.injEq, Prod.mk.injEq] at h
          exact h.1 ▸ erase_const_iter_WF_of_some hash m hwf r.index q.1 q.2 (by rw [hdel])
    · rw [if_neg (by simp [hfound])] at h
      simp only [Option.some.injEq, Prod.mk.injEq] at h
      exact h.1 ▸ hwf

lemma ctrlAt_empty (i : Nat) : ctrlAt (HM.empty : HM K V) i = 0 := by
  show ([] : List Int).getD i 0 = 0
  simp

lemma WF_empty (hash : K → Nat) : WF hash (HM.empty : HM K V) := by
  refine ⟨⟨Or.inl rfl, fun _ => rfl, fun _ => rfl, fun h => absurd rfl h,
    fun h => absurd rfl h, fun j _ => rfl, ?_, rfl, Or.inl rfl, fun _ => rfl⟩, ?_, ?_⟩
  · intro i _
    right
    right
    rw [ctrlAt_empty]
    norm_num
  · intro i hi
    simp [HM.empty] at hi
  · intro i j k v w hi
    simp [HM.empty] at hi

lemma eq_empty_of_cap_zero (m : HM K V) (hs : Shape m) (h0 : m.cap = 0) :
    m = HM.empty := by
  have hsz := size_zero_of_cap_zero m hs h0
  cases m with
  | mk ctrl buckets gmask size cap =>
    simp only at h0 hsz
    rw [show (HM.empty : HM K V) = ⟨[], [], [], 0, 0⟩ from rfl]
    have h1 := hs.ctrl0 h0
    have h2 := hs.buckets0 h0
    have h3 := hs.gmask0 h0
    simp only at h1 h2 h3
    rw [h0, hsz, h1, h2, h3]

lemma clear_eq_empty (m : HM K V) (hs : Shape m) : m.clear = HM.empty := by
  unfold HM.clear destroy_and_deallocate
  by_cases h0 : m.cap = 0
  · have hme := eq_empty_of_cap_zero m hs h0
    rw [hme]
    rfl
  · have hlen := hs.ctrlLen h0
    have hne : ¬ m.ctrl.isEmpty = true := by
      rw [List.isEmpty_iff]
      intro hcon
      rw [hcon] at hlen
      simp at hlen
    rw [if_neg hne]
    rfl

lemma clear_WF (hash : K → Nat) (m : HM K V) (hs : Shape m) :
    WF hash m.clear := by
  rw [clear_eq_empty m hs]
  exact WF_empty hash

end OpWrappers

section NextPow2

lemma next_power_of_2_eq (n : Nat) :
    next_power_of_2 n = if n = 0 then 1 else
      szt (smearStep (smearStep (smearStep (smearStep (smearStep
        (smearStep (n - 1) 1) 2) 4) 8) 16) 32 + 1) := rfl

lemma smearStep_testBit (x w j : Nat) :
    (smearStep x w).testBit j = (x.testBit j || x.testBit (j + w)) := by
  unfold smearStep
  rw [Nat.testBit_or, Nat.testBit_shiftRight x, Nat.add_comm w j]

lemma smearStep_spec (x w : Nat) (a : Nat)
    (hx : ∀ j, x.testBit j = true ↔ ∃ d, d < w ∧ a.testBit (j + d) = true) :
    ∀ j, (smearStep x w).testBit j = true ↔ ∃ d, d < 2 * w ∧ a.testBit (j + d) = true := by
  intro j
  rw [smearStep_testBit, Bool.or_eq_true, hx j, hx (j + w)]
  constructor
  · rintro (⟨d, hd, hfd⟩ | ⟨d, hd, hfd⟩)
    · exact ⟨d, by omega, hfd⟩
    · refine ⟨w + d, by omega, ?_⟩
      rw [← Nat.add_assoc]
      exact hfd
  · rintro ⟨d, hd, hfd⟩
    by_cases hdw : d < w
    · exact Or.inl ⟨d, hdw, hfd⟩
    · refine Or.inr ⟨d - w, by omega, ?_⟩
      have heq : j + w + (d - w) = j + d := by omega
      rw [heq]
      exact hfd

lemma smear6_spec (a j : Nat) :
    (smearStep (smearStep (smearStep (smearStep (smearStep
      (smearStep a 1) 2) 4) 8) 16) 32).testBit j = true ↔
      ∃ d, d < 64 ∧ a.testBit (j + d) = true := by
  have h0 : ∀ j, a.testBit j = true ↔ ∃ d, d < 1 ∧ a.testBit (j + d) = true := by
    intro i
    constructor
    · intro h
      exact ⟨0, by omega, by simpa using h⟩
    · rintro ⟨d, hd, h⟩
      have hd0 : d = 0 := by omega
      rw [hd0] at h
      simpa using h
  have h1 := smearStep_spec a 1 a h0
  have h2 := smearStep_spec _ 2 a h1
  have h4 := smearStep_spec _ 4 a h2
  have h8 := smearStep_spec _ 8 a h4
  have h16 := smearStep_spec _ 16 a h8
  have h32 := smearStep_spec _ 32 a h16
  exact h32 j

lemma log2_le_63 (a : Nat) (ha64 : a < 2 ^ 64) : a.log2 ≤ 63 := by
  by_contra hcon
  push_neg at hcon
  by_cases ha0 : a = 0
  · rw [ha0] at hcon
    simp [Nat.log2] at hcon
  · have h1 : 2 ^ a.log2 ≤ a := Nat.log2_self_le ha0
    have h2 : 2 ^ 64 ≤ 2 ^ a.log2 := Nat.pow_le_pow_right (by omega) (by omega)
    omega

lemma testBit_log2 (a : Nat) (ha : a ≠ 0) : a.testBit a.log2 = true := by
  have hlo : 2 ^ a.log2 ≤ a := Nat.log2_self_le ha
  have hhi : a < 2 ^ (a.log2 + 1) := Nat.lt_log2_self
  have hpos := Nat.two_pow_pos a.log2
  rw [Nat.testBit_to_div_mod]
  have hdiv : a / 2 ^ a.log2 = 1 := by
    have h1 : 1 ≤ a / 2 ^ a.log2 := (Nat.le_div_iff_mul_le hpos).mpr (by omega)
    have h2 : a / 2 ^ a.log2 < 2 := by
      rw [Nat.div_lt_iff_lt_mul hpos]
      have : 2 ^ (a.log2 + 1) = 2 ^ a.log2 * 2 := by ring
      omega
    omega
  rw [hdiv]
  decide

lemma smear_eq_pred_pow (a : Nat) (ha : a ≠ 0) (ha64 : a < 2 ^ 64) :
    smearStep (smearStep (smearStep (smearStep (smearStep
      (smearStep a 1) 2) 4) 8) 16) 32 = 2 ^ (a.log2 + 1) - 1 := by
  have hlo : 2 ^ a.log2 ≤ a := Nat.log2_self_le ha
  have hhi : a < 2 ^ (a.log2 + 1) := Nat.lt_log2_self
  have hL63 : a.log2 ≤ 63 := log2_le_63 a ha64
  have hbitL : a.testBit a.log2 = true := testBit_log2 a ha
  apply Nat.eq_of_testBit_eq
  intro j
  rw [Nat.testBit_two_pow_sub_one]
  by_cases hj : j < a.log2 + 1
  · have hlhs := (smear6_spec a j).mpr ⟨a.log2 - j, by omega, by
      have heq : j + (a.log2 - j) = a.log2 := by omega
      rw [heq]
      exact hbitL⟩
    rw [hlhs]
    simp [hj]
  · have hlhs : ¬ (smearStep (smearStep (smearStep (smearStep (smearStep
        (smearStep a 1) 2) 4) 8) 16) 32).testBit j = true := by
      rw [smear6_spec a j]
      rintro ⟨d, hd, hbit⟩
      have hlt : a < 2 ^ (j + d) :=
        lt_of_lt_of_le hhi (Nat.pow_le_pow_right (by omega) (by omega))
      rw [Nat.testBit_lt_two_pow hlt] at hbit
      cases hbit
    simp only [Bool.not_eq_true] at hlhs
    rw [hlhs]
    simp [hj]

lemma next_power_of_2_spec (n : Nat) (hn : 16 ≤ n) (hsz : n ≤ SZ) :
    next_power_of_2 n = 0 ∨ ∃ t, next_power_of_2 n = 16 * 2 ^ t := by
  have hn0 : n ≠ 0 := by omega
  rw [next_power_of_2_eq, if_neg hn0]
  have ha0 : n - 1 ≠ 0 := by omega
  have ha64 : n - 1 < 2 ^ 64 := by
    unfold SZ at hsz
    omega
  rw [smear_eq_pred_pow (n - 1) ha0 ha64]
  have hL63 : (n - 1).log2 ≤ 63 := log2_le_63 (n - 1) ha64
  have hL3 : 3 ≤ (n - 1).log2 := by
    by_contra hcon
    push_neg at hcon
    have hhi : n - 1 < 2 ^ ((n - 1).log2 + 1) := Nat.lt_log2_self
    have h8 : 2 ^ ((n - 1).log2 + 1) ≤ 2 ^ 3 := Nat.pow_le_pow_right (by omega) (by omega)
    norm_num at h8
    omega
  have hpos := Nat.two_pow_pos ((n - 1).log2 + 1)
  have hsub : 2 ^ ((n - 1).log2 + 1) - 1 + 1 = 2 ^ ((n - 1).log2 + 1) := by omega
  rw [hsub]
  by_cases hL64 : (n - 1).log2 + 1 = 64
  · left
    unfold szt SZ
    rw [hL64]
    simp
  · right
    refine ⟨(n - 1).log2 + 1 - 4, ?_⟩
    unfold szt SZ
    have hlt : 2 ^ ((n - 1).log2 + 1) < 2 ^ 64 := Nat.pow_lt_pow_right (by omega) (by omega)
    rw [Nat.mod_eq_of_lt hlt]
    have hsplit : (n - 1).log2 + 1 = 4 + ((n - 1).log2 + 1 - 4) := by omega
    rw [hsplit, pow_add]
    norm_num

end NextPow2

section ConstructWF

variable [DecidableEq K]

lemma alloc_empty_WF (hash : K → Nat) (c : Nat) (t : Nat) (hc : c = 16 * 2 ^ t) :
    WF hash ( allocate_and_initialize (HM.empty : HM K V) c) ∧
    NoDeleted ( allocate_and_initialize (HM.empty : HM K V) c) ∧
    ( allocate_and_initialize (HM.empty : HM K V) c).size = 0 := by
  have h2t := Nat.two_pow_pos t
  have hc0 : c ≠ 0 := by omega
  set A := allocate_and_initialize (HM.empty : HM K V) c with hA
  have hcap : A.cap = c := alloc_cap _ c hc0
  have hctrl : ∀ i, i < c + 16 → ctrlAt A i = kEmpty := fun i hi => alloc_ctrlAt _ c hc0 i hi
  have hnofull : ∀ i, i < A.cap → ¬ 0 ≤ ctrlAt A i := by
    intro i hi hcon
    rw [hcap] at hi
    rw [hctrl i (by omega)] at hcon
    simp [kEmpty] at hcon
  have hsz : A.size = 0 := by
    rw [alloc_size _ c hc0]
    rfl
  refine ⟨⟨⟨Or.inr ⟨t, by rw [hcap, hc]⟩, fun h => absurd (hcap ▸ h) hc0,
    fun h => absurd (hcap ▸ h) hc0, fun _ => by rw [alloc_ctrl_length _ c hc0, hcap],
    fun _ => by rw [alloc_buckets_length _ c hc0, hcap], ?_, ?_, ?_, ?_,
    fun h => absurd (hcap ▸ h) hc0⟩, ?_, ?_⟩, ?_, hsz⟩
  · intro j hj
    rw [hcap, hctrl (c + j) (by omega), hctrl j (by omega)]
  · intro i hi
    rw [hcap] at hi
    left
    exact hctrl i hi
  · rw [hsz, alloc_countFull _ c hc0]
  · right
    rw [hsz]
    omega
  · intro i hi hfull
    exact absurd hfull (hnofull i hi)
  · intro i j k v w hi hj hfi _ _ _
    exact absurd hfi (hnofull i hi)
  · intro i hi
    rw [hcap] at hi
    rw [hctrl i hi]
    simp [kEmpty, kDeleted]

lemma empty_NoDeleted : NoDeleted (HM.empty : HM K V) := by
  intro i hi
  rw [ctrlAt_empty]
  simp [kDeleted]

lemma construct_WF (hash : K → Nat) (hint : Nat) (hh : hint < SZ) :
    WF hash (HM.construct hint : HM K V) ∧ NoDeleted (HM.construct hint : HM K V) ∧
      (HM.construct hint : HM K V).size = 0 := by
  unfold HM.construct
  by_cases h0 : hint = 0
  · rw [if_pos h0]
    exact ⟨WF_empty hash, empty_NoDeleted, rfl⟩
  · rw [if_neg h0]
    set n := if hint < kGroupWidth then kGroupWidth else hint with hn
    have hn16 : 16 ≤ n := by
      rw [hn]
      unfold kGroupWidth
      split <;> omega
    have hnsz : n ≤ SZ := by
      rw [hn]
      unfold kGroupWidth SZ
      unfold SZ at hh
      split <;> omega
    rcases next_power_of_2_spec n hn16 hnsz with hz | ⟨t, hpow⟩
    · rw [hz]
      show WF hash (HM.empty : HM K V) ∧ _ ∧ _
      exact ⟨WF_empty hash, empty_NoDeleted, rfl⟩
    · rw [hpow]
      exact alloc_empty_WF hash (16 * 2 ^ t) t rfl

end ConstructWF

section ReachWF

variable [DecidableEq K]

lemma applyOp_WF (hash : K → Nat) (m : HM K V) (hwf : WF hash m)
    (op : PubOp K V) (m2 : HM K V) (h : applyOp hash m op = some m2) : WF hash m2 := by
  cases op with
  | ins k v =>
    unfold applyOp at h
    dsimp only at h
    rcases hop : emplace hash m k v with _ | p
    · rw [hop] at h
      cases h
    · rw [hop] at h
      have hp : p.1 = m2 := Option.some.inj h
      exact hp ▸ emplace_WF_of_some hash m hwf k v p.1 p.2 (by rw [hop])
  | idx k d =>
    unfold applyOp at h
    dsimp only at h
    rcases hop : bracket hash m k d with _ | p
    · rw [hop] at h
      cases h
    · rw [hop] at h
      have hp : p.1 = m2 := Option.some.inj h
      exact hp ▸ bracket_WF_of_some hash m hwf k d p.1 p.2 (by rw [hop])
  | del k =>
    unfold applyOp at h
    dsimp only at h
    rcases hop : erase_key hash m k with _ | p
    · rw [hop] at h
      cases h
    · rw [hop] at h
      have hp : p.1 = m2 := Option.some.inj h
      exact hp ▸ erase_key_WF_of_some hash m hwf k p.1 p.2 (by rw [hop])
  | delIter i =>
    unfold applyOp at h
    dsimp only at h
    rcases hop : erase_iter hash m i with _ | p
    · rw [hop] at h
      cases h
    · rw [hop] at h
      have hp : p.1 = m2 := Option.some.inj h
      exact hp ▸ erase_iter_WF_of_some hash m hwf i p.1 p.2 (by rw [hop])
  | delConstIter i =>
    unfold applyOp at h
    dsimp only at h
    rcases hop : erase_const_iter hash m i with _ | p
    · rw [hop] at h
      cases h
    · rw [hop] at h
      have hp : p.1 = m2 := Option.some.inj h
      exact hp ▸ erase_const_iter_WF_of_some hash m hwf i p.1 p.2 (by rw [hop])
  | extract k =>
    unfold applyOp at h
    dsimp only at h
    rcases hop : extract_key hash m k with _ | p
    · rw [hop] at h
      cases h
    · rw [hop] at h
      have hp : p.1 = m2 := Option.some.inj h
      exact hp ▸ extract_key_WF_of_some hash m hwf k p.1 p.2 (by rw [hop])
  | clear =>
    unfold applyOp at h
    dsimp only at h
    have hp : m.clear = m2 := Option.some.inj h
    exact hp ▸ clear_WF hash m hwf.1

lemma Reach_WF (hash : K → Nat) (m : HM K V) (h : Reach hash m) : WF hash m := by
  induction h with
  | construct hint hh => exact (construct_WF hash hint hh).1
  | step m op m2 hm hop ih => exact applyOp_WF hash m ih op m2 hop

end ReachWF



















section LoadClearClaims

/-- C2 (amended): every table state reachable by a completed sequence of
public operations satisfies the load-factor invariant on `m_size` alone:
the capacity is zero, or `8 * size ≤ 7 * capacity` (that is,
`size ≤ capacity * 7/8`); hence every public operation preserves this
bound.  (The claimed bound on `size + tombstones` fails on reachable
states: see the counterexample.) -/
theorem C2_size_load_invariant [DecidableEq K] (hash : K → Nat) (m : HM K V)
    (h : Reach hash m) : m.cap = 0 ∨ 8 * m.size ≤ 7 * m.cap :=
  (Reach_WF hash m h).1.load

/-- C2 witness: the invariant holds of a concrete reachable two-entry
table. -/
theorem C2_size_load_invariant_wit :
    mapTwo.cap = 0 ∨ 8 * mapTwo.size ≤ 7 * mapTwo.cap :=
  C2_size_load_invariant hashId mapTwo
    (Reach_runOps hashId 16 (by decide) [.ins 1 10, .ins 2 20] mapTwo
      (opt_eq_some_getD _ _ (by decide)))

/-- C10: `clear()` on any reachable table always releases the storage:
the resulting state is the capacity-0 empty state, so `capacity() == 0`,
`size() == 0`, `contains(k)` is false for every key, and
`begin() == end()`. -/
theorem C10_clear_releases [DecidableEq K] (hash : K → Nat) (m : HM K V)
    (h : Reach hash m) :
    m.clear = HM.empty ∧ m.clear.cap = 0 ∧ m.clear.size = 0 ∧
      (∀ k, containsB hash m.clear k = false) ∧
      beginIdx m.clear = endIdx m.clear := by
  have hcl := clear_eq_empty m (Reach_WF hash m h).1
  refine ⟨hcl, by rw [hcl]; rfl, by rw [hcl]; rfl, ?_, by rw [hcl]; rfl⟩
  intro k
  rw [hcl]
  rfl

/-- C10 witness: clearing a concrete reachable two-entry table gives the
empty state. -/
theorem C10_clear_releases_wit :
    mapTwo.clear = HM.empty ∧ mapTwo.clear.cap = 0 ∧ mapTwo.clear.size = 0 ∧
      (∀ k, containsB hashId mapTwo.clear k = false) ∧
      beginIdx mapTwo.clear = endIdx mapTwo.clear :=
  C10_clear_releases hashId mapTwo
    (Reach_runOps hashId 16 (by decide) [.ins 1 10, .ins 2 20] mapTwo
      (opt_eq_some_getD _ _ (by decide)))

end LoadClearClaims

section InsertListLemmas

variable [DecidableEq K]

lemma fresh_of_size_zero (m : HM K V) (hs : Shape m) (hsz : m.size = 0) :
    ∀ k w, ¬ storedPair m k w := by
  rintro k w ⟨i, hi, hfull, _⟩
  have hpos : 0 < countFull m :=
    countP_pos_of_mem m.cap i _ hi (by simpa using hfull)
  rw [← hs.sizeEq] at hpos
  omega

lemma insertList_cons_eq (hash : K → Nat) (m : HM K V) (p : K × V)
    (rest : List (K × V)) :
    insertList hash m (p :: rest) =
      match emplace hash m p.1 p.2 with
      | none => none
      | some q => insertList hash q.1 rest := rfl

lemma insertList_fresh (hash : K → Nat) :
    ∀ (l : List (K × V)) (m : HM K V), WF hash m → NoDeleted m →
      (∀ p, p ∈ l → ∀ w, ¬ storedPair m p.1 w) →
      (l.map Prod.fst).Nodup →
      ∃ m2, insertList hash m l = some m2 ∧ WF hash m2 ∧ NoDeleted m2 ∧
        m2.size = m.size + l.length ∧ m2.cap = capsEvolve m.cap m.size l.length ∧
        (∀ k v, storedPair m2 k v ↔ (storedPair m k v ∨ (k, v) ∈ l)) := by
  intro l
  induction l with
  | nil =>
    intro m hwf hnd _ _
    refine ⟨m, rfl, hwf, hnd, by simp, rfl, ?_⟩
    simp
  | cons p rest ih =>
    intro m hwf hnd hfresh hnodup
    obtain ⟨m1, hemp, hwf1, hnd1, hsz1, hcap1, hiff1⟩ :=
      emplace_fresh hash m hwf hnd p.1 p.2 (hfresh p (by simp))
    simp only [List.map_cons, List.nodup_cons] at hnodup
    have hfresh1 : ∀ q, q ∈ rest → ∀ w, ¬ storedPair m1 q.1 w := by
      intro q hq w hst
      rw [hiff1] at hst
      rcases hst with h | ⟨hk, _⟩
      · exact hfresh q (by simp [hq]) w h
      · have hmem : q.1 ∈ rest.map Prod.fst := List.mem_map_of_mem _ hq
        rw [hk] at hmem
        exact hnodup.1 hmem
    obtain ⟨m2, hins, hwf2, hnd2, hsz2, hcap2, hiff2⟩ := ih m1 hwf1 hnd1 hfresh1 hnodup.2
    refine ⟨m2, ?_, hwf2, hnd2, ?_, ?_, ?_⟩
    · rw [insertList_cons_eq, hemp]
      exact hins
    · rw [hsz2, hsz1]
      simp
      omega
    · rw [hcap2, hsz1, hcap1]
      simp only [List.length_cons]
      rfl
    · intro k v
      rw [hiff2, hiff1]
      simp only [List.mem_cons, Prod.ext_iff]
      tauto

end InsertListLemmas

section RoundTripClaims

/-- C4: inserting any list of pairs with pairwise distinct keys into a
fresh table succeeds and a lookup of each inserted key returns the value
supplied at insertion (resizes included, since `insertList` goes through
`emplace` and its resize trigger); and on every reachable table, every
key stored immediately before a resize is stored immediately after it,
with its value still found by lookup. -/
theorem C4_round_trip [DecidableEq K] (hash : K → Nat)
    (l : List (K × V)) (hnodup : (l.map Prod.fst).Nodup) :
    (∃ m2, insertList hash (HM.construct 0) l = some m2 ∧
      ∀ p, p ∈ l → lookup hash m2 p.1 = some p.2) ∧
    (∀ m : HM K V, Reach hash m → ∀ k v, storedPair m k v →
      ∃ m3, resize_and_rehash hash m = some m3 ∧ storedPair m3 k v ∧
        lookup hash m3 k = some v) := by
  constructor
  · obtain ⟨hwf0, hnd0, hsz0⟩ := construct_WF (K := K) (V := V) hash 0 (by decide)
    have hfresh := fresh_of_size_zero (HM.construct 0 : HM K V) hwf0.1 hsz0
    obtain ⟨m2, hins, hwf2, _, _, _, hiff⟩ :=
      insertList_fresh hash l (HM.construct 0) hwf0 hnd0 (fun p _ w => hfresh p.1 w) hnodup
    refine ⟨m2, hins, ?_⟩
    intro p hp
    have hst : storedPair m2 p.1 p.2 := (hiff p.1 p.2).mpr (Or.inr (by simpa using hp))
    exact lookup_stored hash m2 hwf2 p.1 p.2 hst
  · intro m hreach k v hst
    have hwf := Reach_WF hash m hreach
    obtain ⟨m3, hres, hwf3, _, _, _, hiff⟩ := resize_ok hash m hwf
    have hst3 : storedPair m3 k v := (hiff k v).mpr hst
    exact ⟨m3, hres, hst3, lookup_stored hash m3 hwf3 k v hst3⟩

/-- C4 witness: the round trip at a concrete hash and a concrete
two-entry insertion sequence. -/
theorem C4_round_trip_wit :
    (∃ m2, insertList hashId (HM.construct 0) [(1, 10), (2, 20)] = some m2 ∧
      ∀ p, p ∈ [((1 : Nat), (10 : Nat)), (2, 20)] → lookup hashId m2 p.1 = some p.2) ∧
    (∀ m : HM Nat Nat, Reach hashId m → ∀ k v, storedPair m k v →
      ∃ m3, resize_and_rehash hashId m = some m3 ∧ storedPair m3 k v ∧
        lookup hashId m3 k = some v) :=
  C4_round_trip hashId [(1, 10), (2, 20)] (by decide)

/-- C6: under any hash function, constructing with hint 16 yields
capacity 16, and inserting the 15 keys 0..14 with values `i*10` succeeds
and yields size 15 and capacity 32 (one doubling, triggered when the
15th insert finds size 14 = capacity*7/8), with `lookup i = some (i*10)`
for every `i < 15`. -/
theorem C6_resize_trigger (hash : Nat → Nat) :
    (HM.construct 16 : HM Nat Nat).cap = 16 ∧
    ∃ m2, insertList hash (HM.construct 16) listS2 = some m2 ∧
      m2.size = 15 ∧ m2.cap = 32 ∧
      ∀ i, i < 15 → lookup hash m2 i = some (i * 10) := by
  refine ⟨by decide, ?_⟩
  obtain ⟨hwf0, hnd0, hsz0⟩ := construct_WF (K := Nat) (V := Nat) hash 16 (by decide)
  have hfresh := fresh_of_size_zero (HM.construct 16 : HM Nat Nat) hwf0.1 hsz0
  have hnodup : (listS2.map Prod.fst).Nodup := by decide
  obtain ⟨m2, hins, hwf2, _, hsz2, hcap2, hiff⟩ :=
    insertList_fresh hash listS2 (HM.construct 16) hwf0 hnd0
      (fun p _ w => hfresh p.1 w) hnodup
  refine ⟨m2, hins, ?_, ?_, ?_⟩
  · rw [hsz2, hsz0]
    decide
  · rw [hcap2, hsz0]
    decide
  · intro i hi
    have hmem : ((i, i * 10) : Nat × Nat) ∈ listS2 := by
      unfold listS2
      exact List.mem_map.mpr ⟨i, List.mem_range.mpr hi, rfl⟩
    have hst : storedPair m2 i (i * 10) := (hiff i (i * 10)).mpr (Or.inr hmem)
    exact lookup_stored hash m2 hwf2 i (i * 10) hst

/-- C6 witness: the scenario at the identity hash. -/
theorem C6_resize_trigger_wit :
    (HM.construct 16 : HM Nat Nat).cap = 16 ∧
    ∃ m2, insertList hashId (HM.construct 16) listS2 = some m2 ∧
      m2.size = 15 ∧ m2.cap = 32 ∧
      ∀ i, i < 15 → lookup hashId m2 i = some (i * 10) :=
  C6_resize_trigger hashId

end RoundTripClaims

end OptiMap
